import Mathlib

/-!
Verification of the go-gitdiff patch library core against its specification.

This file contains a shallow embedding of the data model, the fragment
validator, the strict text applier, the binary delta applier and the
relevant parts of the parser, translated from the Go sources, together
with theorems settling the specification claims.

Conventions of the embedding:
* Go `int`/`int64` values become `Int`; byte values become `Nat`.
* Go strings become Lean `String` (byte-for-byte equality becomes
  string equality; all inputs of interest are ASCII).
* Fallible functions return `Option`/`Except`; the Go error values that
  matter to the claims are modelled by the inductive type `GoError`.
* Stateful readers become explicit state passing on small structures.
-/

namespace GitDiff

/-- Go `LineOp` is an `int`; `OpContext`, `OpDelete`, `OpAdd` are iota values. -/
def opContext : Int := 0

/-- Go `OpDelete` (value 1). -/
def opDelete : Int := 1

/-- Go `OpAdd` (value 2). -/
def opAdd : Int := 2

/-- A line in a text fragment (`Line` in gitdiff.go). -/
structure Line where
  op : Int
  line : String
deriving DecidableEq, Repr

/-- Go `Line.Old`: the line appears in the old content. -/
def Line.Old (l : Line) : Bool :=
  l.op = opContext || l.op = opDelete

/-- Go `Line.New`: the line appears in the new content. -/
def Line.New (l : Line) : Bool :=
  l.op = opContext || l.op = opAdd

/-- True when the final character of a string is a newline. -/
def endsWithNL (s : String) : Bool :=
  s.toList.getLast? = some '\n'

/-- Go `Line.NoEOL`: the line is missing a trailing newline character. -/
def Line.NoEOL (l : Line) : Bool :=
  l.line.length = 0 || !endsWithNL l.line

/-- A text fragment, one hunk of a diff (`TextFragment` in gitdiff.go). -/
structure TextFragment where
  comment : String := ""
  oldPosition : Int := 0
  oldLines : Int := 0
  newPosition : Int := 0
  newLines : Int := 0
  linesAdded : Int := 0
  linesDeleted : Int := 0
  leadingContext : Int := 0
  trailingContext : Int := 0
  lines : List Line := []
deriving DecidableEq, Repr

/-- Counter state of the validation loop in `TextFragment.Validate`. -/
structure ValCounts where
  oldL : Int := 0
  newL : Int := 0
  leadC : Int := 0
  trailC : Int := 0
  ctxL : Int := 0
  addL : Int := 0
  delL : Int := 0
deriving DecidableEq, Repr

/-- Go `lineCountErr`. -/
def lineCountErr (kind : String) (actual reported : Int) : String :=
  "fragment contains " ++ toString actual ++ " " ++ kind ++
    " lines but reports " ++ toString reported

/-- The counting loop of `TextFragment.Validate`: walks the lines, tallying
line kinds, and fails on the first unknown operator. -/
def validateLoop : List Line → Int → ValCounts → Except String ValCounts
  | [], _, c => .ok c
  | l :: ls, i, c =>
    if l.op = opContext then
      validateLoop ls (i + 1)
        { c with
          oldL := c.oldL + 1, newL := c.newL + 1, ctxL := c.ctxL + 1,
          leadC := if c.addL = 0 ∧ c.delL = 0 then c.leadC + 1 else c.leadC,
          trailC := if c.addL = 0 ∧ c.delL = 0 then c.trailC else c.trailC + 1 }
    else if l.op = opAdd then
      validateLoop ls (i + 1)
        { c with newL := c.newL + 1, addL := c.addL + 1, trailC := 0 }
    else if l.op = opDelete then
      validateLoop ls (i + 1)
        { c with oldL := c.oldL + 1, delL := c.delL + 1, trailC := 0 }
    else
      .error ("unknown operator on line " ++ toString (i + 1))

/-- Go `TextFragment.Validate` (on a non-nil fragment): returns `none` when
the fragment is self-consistent and the first error message otherwise. -/
def validate (f : TextFragment) : Option String :=
  match validateLoop f.lines 0 {} with
  | .error m => some m
  | .ok c =>
    if c.oldL ≠ f.oldLines then some (lineCountErr "old" c.oldL f.oldLines)
    else if c.newL ≠ f.newLines then some (lineCountErr "new" c.newL f.newLines)
    else if c.leadC ≠ f.leadingContext then
      some (lineCountErr "leading context" c.leadC f.leadingContext)
    else if c.trailC ≠ f.trailingContext then
      some (lineCountErr "trailing context" c.trailC f.trailingContext)
    else if c.addL ≠ f.linesAdded then some (lineCountErr "added" c.addL f.linesAdded)
    else if c.delL ≠ f.linesDeleted then some (lineCountErr "deleted" c.delL f.linesDeleted)
    else if f.oldPosition = 0 ∧ f.oldLines ≠ 0 then
      some "file creation fragment contains context or deletion lines"
    else none

/-! ### Specification-side counting functions for fragment consistency -/

/-- Number of lines that appear in the old content (Context or Delete op). -/
def countOld (ls : List Line) : Nat :=
  ls.countP fun l => l.op = opContext || l.op = opDelete

/-- Number of lines that appear in the new content (Context or Add op). -/
def countNew (ls : List Line) : Nat :=
  ls.countP fun l => l.op = opContext || l.op = opAdd

/-- Number of added lines. -/
def countAdd (ls : List Line) : Nat :=
  ls.countP fun l => l.op = opAdd

/-- Number of deleted lines. -/
def countDel (ls : List Line) : Nat :=
  ls.countP fun l => l.op = opDelete

/-- Number of context lines. -/
def countCtx (ls : List Line) : Nat :=
  ls.countP fun l => l.op = opContext

/-- Number of context lines before the first non-context line. -/
def ctxPre (ls : List Line) : Nat :=
  (ls.takeWhile fun l => l.op = opContext).length

/-- Number of context lines after the last non-context line. -/
def ctxSuf (ls : List Line) : Nat :=
  (ls.reverse.takeWhile fun l => l.op = opContext).length

/-- True when the fragment contains at least one Add or Delete line. -/
def hasChange (ls : List Line) : Bool :=
  ls.any fun l => l.op = opAdd || l.op = opDelete

/-- True when every line op is one of Context, Add, Delete. -/
def opsValid (ls : List Line) : Bool :=
  ls.all fun l => l.op = opContext || l.op = opAdd || l.op = opDelete

/-- The self-consistency predicate exactly as the claim states it: counted
old/new lines match the stored counts, the stored added/deleted tallies
match, the stored leading (resp. trailing) context equals the number of
Context lines before the first (resp. after the last) non-Context line,
all ops are known, and a zero old position forces zero old lines. -/
def specConsistent (f : TextFragment) : Prop :=
  (countOld f.lines : Int) = f.oldLines ∧
  (countNew f.lines : Int) = f.newLines ∧
  f.linesAdded = (countAdd f.lines : Int) ∧
  f.linesDeleted = (countDel f.lines : Int) ∧
  f.leadingContext = (ctxPre f.lines : Int) ∧
  f.trailingContext = (ctxSuf f.lines : Int) ∧
  opsValid f.lines = true ∧
  (f.oldPosition = 0 → f.oldLines = 0)

/-- The amended consistency predicate: identical to `specConsistent` except
that the trailing context of a fragment with no Add or Delete line is 0
(such a fragment is all leading context in the code). -/
def specConsistentAmended (f : TextFragment) : Prop :=
  (countOld f.lines : Int) = f.oldLines ∧
  (countNew f.lines : Int) = f.newLines ∧
  f.linesAdded = (countAdd f.lines : Int) ∧
  f.linesDeleted = (countDel f.lines : Int) ∧
  f.leadingContext = (ctxPre f.lines : Int) ∧
  f.trailingContext = (if hasChange f.lines then (ctxSuf f.lines : Int) else 0) ∧
  opsValid f.lines = true ∧
  (f.oldPosition = 0 → f.oldLines = 0)

instance (f : TextFragment) : Decidable (specConsistent f) := by
  unfold specConsistent; infer_instance

instance (f : TextFragment) : Decidable (specConsistentAmended f) := by
  unfold specConsistentAmended; infer_instance

/-- The counters the validation loop produces when started in state `c`
on a fragment whose ops are all known: functional form of the loop. -/
def loopSpec (c : ValCounts) (ls : List Line) : ValCounts where
  oldL := c.oldL + countOld ls
  newL := c.newL + countNew ls
  ctxL := c.ctxL + countCtx ls
  addL := c.addL + countAdd ls
  delL := c.delL + countDel ls
  leadC := c.leadC + (if c.addL = 0 ∧ c.delL = 0 then (ctxPre ls : Int) else 0)
  trailC :=
    if hasChange ls then (ctxSuf ls : Int)
    else if c.addL = 0 ∧ c.delL = 0 then c.trailC
    else c.trailC + (countCtx ls : Int)

/-! ### Error model (apply.go)

`GoError` models the Go error values relevant to applying: `io.EOF`,
`io.ErrUnexpectedEOF`, `*Conflict`, parse/validation errors (as their
message) and `*ApplyError` with its three 1-indexed position fields. -/

/-- Go error values that flow through the apply code paths. -/
inductive GoError where
  | eofE : GoError
  | unexpectedEOF : GoError
  | conflict (msg : String) : GoError
  | parseE (msg : String) : GoError
  | genericE (msg : String) : GoError
  | applyE (line fragment fragmentLine : Int) (cause : GoError) : GoError
deriving DecidableEq, Repr

/-- Go `wrapEOF`: re-tags `io.EOF` as `io.ErrUnexpectedEOF`. -/
def wrapEOF (e : GoError) : GoError :=
  if e = .eofE then .unexpectedEOF else e

/-- True when the error is an `*ApplyError`. -/
def GoError.isApplyE : GoError → Bool
  | .applyE _ _ _ _ => true
  | _ => false

/-- The typed position arguments of `applyError` (`lineNum`, `fragNum`,
`fragLineNum` in apply.go). -/
inductive ApplyArg where
  | lineNum (n : Int) : ApplyArg
  | fragNum (n : Int) : ApplyArg
  | fragLineNum (n : Int) : ApplyArg
deriving DecidableEq, Repr

/-- The argument loop of `applyError`: updates the three position fields,
adding 1 to each supplied zero-indexed value. -/
def applyErrorFold : List ApplyArg → Int → Int → Int → Int × Int × Int
  | [], l, fg, fl => (l, fg, fl)
  | .lineNum n :: rest, _, fg, fl => applyErrorFold rest (n + 1) fg fl
  | .fragNum n :: rest, l, _, fl => applyErrorFold rest l (n + 1) fl
  | .fragLineNum n :: rest, l, fg, _ => applyErrorFold rest l fg (n + 1)

/-- Go `applyError`: wraps an error in an `*ApplyError` (or augments an
existing one) with the supplied position information; nil stays nil. -/
def applyError (e : Option GoError) (args : List ApplyArg) : Option GoError :=
  match e with
  | none => none
  | some err =>
    match err with
    | .applyE l fg fl cause =>
      let t := applyErrorFold args l fg fl
      some (.applyE t.1 t.2.1 t.2.2 cause)
    | other =>
      let t := applyErrorFold args 0 0 0
      some (.applyE t.1 t.2.1 t.2.2 (wrapEOF other))

/-! ### Line source (io.go `lineReader`)

A line source is modelled as the list of lines of the underlying byte
stream (each line includes its trailing newline; only the final line may
lack it) together with the zero-indexed number of the next line, exactly
the state of `lineReader` over a `bufio.Reader`. -/

/-- State of Go `lineReader`: the remaining lines and the line number. -/
structure Reader where
  rem : List String
  lineno : Int
deriving DecidableEq, Repr

/-- A fresh reader over a source, as `NewLineReader(src, 0)`. -/
def mkReader (src : List String) : Reader := ⟨src, 0⟩

/-- Go `lineReader.ReadLine`: returns the next line, its number and an EOF
flag (`bufio.ReadString` consumes the data it returns; the line number
advances only on a complete, newline-terminated line). -/
def readLine : Reader → String × Int × Bool × Reader
  | ⟨[], n⟩ => ("", n, true, ⟨[], n⟩)
  | ⟨l :: rest, n⟩ =>
    if endsWithNL l then (l, n, false, ⟨rest, n + 1⟩)
    else (l, n, true, ⟨rest, n⟩)

/-- A single line of a byte stream is non-empty and contains a newline only
as its final character. -/
def properLine (s : String) : Bool :=
  !s.toList.isEmpty && s.toList.dropLast.all fun c => c ≠ '\n'

/-- A well-formed line decomposition of a byte stream: every line is proper
and every line except possibly the last ends with a newline. -/
def wfSource : List String → Bool
  | [] => true
  | [l] => properLine l
  | l :: rest => properLine l && endsWithNL l && wfSource rest

/-- The number of newline-terminated lines of the source: all of them when
the last line ends in a newline, one fewer otherwise. -/
def effLen (src : List String) : Nat :=
  match src.getLast? with
  | none => 0
  | some l => if endsWithNL l then src.length else src.length - 1

/-- The source line at a zero-indexed position, taken as empty past the end
(this is what `ReadLine` returns there). -/
def srcLineAt (src : List String) (k : Nat) : String :=
  src.getD k ""

/-- Result of `copyLines`: the data written to dst, the returned line, its
number, the error and the advanced reader. -/
structure CopyRes where
  written : String
  line : String
  n : Int
  err : Option GoError
  rd : Reader
deriving Repr

/-- The return cases of `copyLines` when `ReadLine` reported EOF: the
acceptable negative-limit EOF, the line at the limit (EOF attached), the
overlap conflicts past the limit, and the unexpected EOF before it. -/
def copyLinesEOF (line : String) (n limit : Int) (r' : Reader) : CopyRes :=
  if limit < 0 ∧ line = "" then ⟨"", "", limit, none, r'⟩
  else if n = limit then ⟨"", line, n, some .eofE, r'⟩
  else if n > limit then
    if limit < 0 then
      ⟨"", "", n, some (.conflict "cannot create new file from non-empty src"), r'⟩
    else
      ⟨"", "", n, some (.conflict "fragment overlaps with an applied fragment"), r'⟩
  else ⟨"", line, n, some (wrapEOF .eofE), r'⟩

/-- Go `copyLines`: copies lines from src to dst until the line at `limit`,
exclusive, returning that line and its number. A negative limit checks
that the source has no more lines to read. The loop is split on the
`ReadLine` outcome (the reader state) so the recursion is structural;
each branch follows the order of the Go switch. -/
def copyLinesGo (limit : Int) : List String → Int → CopyRes
  | [], n0 => copyLinesEOF "" n0 limit ⟨[], n0⟩
  | l :: rest, n0 =>
    if endsWithNL l then
      if n0 = limit then ⟨"", l, n0, none, ⟨rest, n0 + 1⟩⟩
      else if n0 > limit then
        if limit < 0 then
          ⟨"", "", n0, some (.conflict "cannot create new file from non-empty src"), ⟨rest, n0 + 1⟩⟩
        else
          ⟨"", "", n0, some (.conflict "fragment overlaps with an applied fragment"), ⟨rest, n0 + 1⟩⟩
      else
        let res := copyLinesGo limit rest (n0 + 1)
        ⟨l ++ res.written, res.line, res.n, res.err, res.rd⟩
    else copyLinesEOF l n0 limit ⟨rest, n0⟩

/-- Go `copyLines` applied to a reader state. -/
def copyLines (r : Reader) (limit : Int) : CopyRes :=
  copyLinesGo limit r.rem r.lineno

/-- Go `applyTextLine`: checks a Context/Delete line against the source line
and emits the Context/Add content; returns the conflict message on a
mismatch and the data written. -/
def applyTextLine (src : String) (l : Line) : Option String × String :=
  if (l.op = opContext ∨ l.op = opDelete) ∧ src ≠ l.line then
    (some "fragment line does not match src line", "")
  else
    (none, if l.op = opContext ∨ l.op = opAdd then l.line else "")

/-- Result of applying a fragment (or a file): output written, error, and
the final reader state. -/
structure ApplyRes where
  out : String
  err : Option GoError
  rd : Reader
deriving Repr

/-- The line loop of `TextFragment.ApplyStrict`: applies each fragment line
against the held source line, advancing the reader before the next line
of the fragment when it appears in the source and the reader is behind. -/
def applyLines : List Line → Int → String → Int → Int → Int → Reader → String → ApplyRes
  | [], _, _, _, _, _, r, acc => ⟨acc, none, r⟩
  | l :: rest, i, nextLine, n, used, limit, r, acc =>
    let a := applyTextLine nextLine l
    match a.1 with
    | some m => ⟨acc, applyError (some (.conflict m)) [.lineNum n, .fragLineNum i], r⟩
    | none =>
      let acc2 := acc ++ a.2
      let used2 := if l.Old then used + 1 else used
      match rest with
      | [] => ⟨acc2, none, r⟩
      | l2 :: _ =>
        if l2.Old ∧ n - limit < used2 then
          let t := readLine r
          if t.2.2.1 ∧ l2.NoEOL then
            applyLines rest (i + 1) t.1 t.2.1 used2 limit t.2.2.2 acc2
          else if t.2.2.1 then
            ⟨acc2, applyError (some .eofE) [.lineNum t.2.1, .fragLineNum (i + 1)], t.2.2.2⟩
          else
            applyLines rest (i + 1) t.1 t.2.1 used2 limit t.2.2.2 acc2
        else
          applyLines rest (i + 1) nextLine n used2 limit r acc2

/-- Go `TextFragment.ApplyStrict`: validates the fragment, copies the lines
before the fragment position, then applies the fragment lines. -/
def TextFragment.applyStrict (f : TextFragment) (r : Reader) : ApplyRes :=
  match validate f with
  | some msg => ⟨"", applyError (some (.parseE msg)) [], r⟩
  | none =>
    let limit := f.oldPosition - 1
    let c := copyLines r limit
    if c.err ≠ none ∧ c.err ≠ some .eofE then
      ⟨c.written, applyError c.err [.lineNum c.n], c.rd⟩
    else
      let res := applyLines f.lines 0 c.line c.n 0 limit c.rd c.written
      ⟨res.out, res.err, res.rd⟩

/-- The fragment loop of `File.ApplyStrict` for a text file: applies each
fragment in order (tagging errors with the fragment number) and then
copies the remaining source lines to the output. -/
def fileApplyStrictText : List TextFragment → Int → Reader → String → ApplyRes
  | [], _, r, acc => ⟨acc ++ String.join r.rem, none, ⟨[], r.lineno⟩⟩
  | fr :: rest, i, r, acc =>
    let res := fr.applyStrict r
    match res.err with
    | some e => ⟨acc ++ res.out, applyError (some e) [.fragNum i], res.rd⟩
    | none => fileApplyStrictText rest (i + 1) res.rd (acc ++ res.out)

/-! ### Specification-side helpers for the strict apply characterization -/

/-- The texts of the fragment lines that appear in the old content
(Context and Delete lines), in order. -/
def oldTexts (ls : List Line) : List String :=
  (ls.filter fun l => l.Old).map fun l => l.line

/-- The old (Context/Delete) lines of a fragment suffix match the source
when, counting old lines from `u`, the j-th old line equals the source
line at position `limit + u + j` (positions past the end of the source
read as empty). -/
def oldsMatch (src : List String) (limit : Nat) : List Line → Nat → Prop
  | [], _ => True
  | l :: rest, u =>
    if l.Old then l.line = srcLineAt src (limit + u) ∧ oldsMatch src limit rest (u + 1)
    else oldsMatch src limit rest u

instance (src : List String) (limit : Nat) (ls : List Line) (u : Nat) :
    Decidable (oldsMatch src limit ls u) := by
  induction ls generalizing u with
  | nil => exact inferInstanceAs (Decidable True)
  | cons l rest ih =>
    simp only [oldsMatch]
    have : ∀ u, Decidable (oldsMatch src limit rest u) := ih
    infer_instance

/-- The reader state after the first `m` source lines have been consumed:
the remaining lines and the line number (which only counts complete,
newline-terminated lines). -/
def rdAt (src : List String) (m : Nat) : Reader :=
  ⟨src.drop m, (min m (effLen src) : Int)⟩

/-- The held line at a point of the apply loop: the next source line to be
matched when the reader is caught up (`fr = true`), or the previous one
when the last old line was just consumed (`fr = false`). -/
def nlOf (src : List String) (limit u : Nat) (fr : Bool) : String :=
  srcLineAt src (if fr then limit + u else limit + u - 1)

/-- The reported line number matching `nlOf`. -/
def nnOf (src : List String) (limit u : Nat) (fr : Bool) : Int :=
  (min (if fr then limit + u else limit + u - 1) (effLen src) : Int)

/-- The reader state matching `nlOf`. -/
def rdOf (src : List String) (limit u : Nat) (fr : Bool) : Reader :=
  rdAt src (if fr then limit + u + 1 else limit + u)

/-- The errors a strict text apply can report after validation and the
initial copy: a line-mismatch conflict or an unexpected EOF, wrapped in
an ApplyError. -/
def applyFailureOk (e : GoError) : Prop :=
  ∃ a b c, e = .applyE a b c (.conflict "fragment line does not match src line") ∨
    e = .applyE a b c .unexpectedEOF

/-! ### Binary fragments and the delta applier (apply.go) -/

/-- Go `BinaryPatchDelta` (iota value 0). -/
def binaryPatchDelta : Int := 0

/-- Go `BinaryPatchLiteral` (iota value 1). -/
def binaryPatchLiteral : Int := 1

/-- A binary fragment (`BinaryFragment` in gitdiff.go); `data` holds the
inflated bytes. -/
structure BinaryFragment where
  method : Int
  size : Int
  data : List Nat
deriving DecidableEq, Repr

/-- Model of `bytes.Reader.ReadAt`: reads `count` bytes at offset `off`,
returning the data, the number of bytes read and an error (EOF on a
short read). -/
def readAt (src : List Nat) (count : Nat) (off : Int) : List Nat × Nat × Option GoError :=
  if off < 0 then ([], 0, some (.genericE "bytes.Reader.ReadAt: negative offset"))
  else
    let data := (src.drop off.toNat).take count
    (data, data.length, if data.length < count then some .eofE else none)

/-- Go `checkBinarySrcSize`: verifies the declared source size by reading
two bytes starting just before the end. -/
def checkBinarySrcSize (size : Int) (src : List Nat) : Option GoError :=
  let start := if size > 0 then size - 1 else size
  let r := readAt src 2 start
  let n := r.2.1
  let err := r.2.2
  if (err = some .eofE ∧ size = 0 ∧ n = 0) ∨ (size > 0 ∧ n = 1) then none
  else if err ≠ none ∧ err ≠ some .eofE then err
  else some (.conflict "fragment src size does not match actual src size")

/-- Interpret accumulated bits as a Go `int64` (two's complement, 64 bits). -/
def int64ofBits (v : Nat) : Int :=
  let m : Nat := v % 2 ^ 64
  if m < 2 ^ 63 then (m : Int) else (m : Int) - 2 ^ 64

/-- The loop of `readBinaryDeltaSize`: little-endian base-128 accumulation,
7 bits per byte, stopping at the first byte without the high bit. -/
def readBinaryDeltaSizeAux : List Nat → Nat → Nat → Nat × List Nat
  | [], _, size => (size, [])
  | b :: rest, shift, size =>
    let size := size ||| ((b &&& 127) <<< shift)
    if b ≤ 127 then (size, rest)
    else readBinaryDeltaSizeAux rest (shift + 7) size

/-- Go `readBinaryDeltaSize`: reads a variable-length size from a
delta-encoded binary fragment, returning the size and the unused data. -/
def readBinaryDeltaSize (d : List Nat) : Int × List Nat :=
  let r := readBinaryDeltaSizeAux d 0 0
  (int64ofBits r.1, r.2)

/-- Go `applyBinaryDeltaAdd`: an add opcode writes the next `op` literal
bytes of the delta stream. -/
def applyBinaryDeltaAdd (op : Nat) (delta : List Nat) :
    Int × List Nat × Option GoError × List Nat :=
  let size := op
  if delta.length < size then
    (0, delta, some (.genericE "corrupt binary delta: incomplete add"), [])
  else ((size : Int), delta.drop size, none, delta.take size)

/-- The `unpack` closure of `applyBinaryDeltaCopy`: collects the bytes
selected by the opcode bits `start+i..start+bits-1` (the first argument
counts the bits still to examine) in little-endian order, flagging an
error when the delta stream is exhausted. -/
def unpackLoop (op start : Nat) : Nat → Nat → List Nat → Nat → Nat × List Nat × Bool
  | 0, _, delta, v => (v, delta, false)
  | todo + 1, i, delta, v =>
    if op &&& (1 <<< (i + start)) > 0 then
      match delta with
      | [] => (v, delta, true)
      | b :: rest => unpackLoop op start todo (i + 1) rest (v ||| (b <<< (8 * i)))
    else unpackLoop op start todo (i + 1) delta v

/-- Go `applyBinaryDeltaCopy`: a copy opcode reads an offset and size
selected by the opcode bits and copies that range of the source. -/
def applyBinaryDeltaCopy (op : Nat) (delta : List Nat) (src : List Nat) :
    Int × List Nat × Option GoError × List Nat :=
  let u1 := unpackLoop op 0 4 0 delta 0
  let u2 := unpackLoop op 4 3 0 u1.2.1 0
  if u1.2.2 || u2.2.2 then
    (0, u2.2.1, some (.genericE "corrupt binary delta: incomplete copy"), [])
  else
    let size := if u2.1 = 0 then 0x10000 else u2.1
    match readAt src size (u1.1 : Int) with
    | (_, _, some e) => (0, u2.2.1, some (wrapEOF e), [])
    | (data, _, none) => ((size : Int), u2.2.1, none, data)

theorem applyBinaryDeltaAdd_rest_le (op : Nat) (delta : List Nat) :
    (applyBinaryDeltaAdd op delta).2.1.length ≤ delta.length := by
  unfold applyBinaryDeltaAdd
  by_cases h : delta.length < op <;> simp [h]

theorem unpackLoop_rest_le (op start : Nat) :
    ∀ todo i delta v, (unpackLoop op start todo i delta v).2.1.length ≤ delta.length := by
  intro todo
  induction todo with
  | zero => intro i delta v; simp [unpackLoop]
  | succ k ih =>
    intro i delta v
    unfold unpackLoop
    by_cases hb : op &&& (1 <<< (i + start)) > 0
    · simp only [hb, if_pos]
      match delta with
      | [] => simp
      | b :: rest =>
        simpa using Nat.le_trans (ih (i + 1) rest (v ||| (b <<< (8 * i)))) (by simp)
    · simpa [hb] using ih (i + 1) delta v

theorem applyBinaryDeltaCopy_rest_le (op : Nat) (delta src : List Nat) :
    (applyBinaryDeltaCopy op delta src).2.1.length ≤ delta.length := by
  unfold applyBinaryDeltaCopy
  have h1 := unpackLoop_rest_le op 0 4 0 delta 0
  have h2 := unpackLoop_rest_le op 4 3 0 (unpackLoop op 0 4 0 delta 0).2.1 0
  have h : (unpackLoop op 4 3 0 (unpackLoop op 0 4 0 delta 0).2.1 0).2.1.length ≤
      delta.length := Nat.le_trans h2 h1
  by_cases hc : (unpackLoop op 0 4 0 delta 0).2.2 ||
      (unpackLoop op 4 3 0 (unpackLoop op 0 4 0 delta 0).2.1 0).2.2
  · simpa [hc] using h
  · simp only [hc, Bool.false_eq_true, if_false]
    split <;> simpa using h

/-- The opcode loop of `applyBinaryDeltaFragment`. -/
def applyBinaryDeltaLoop (src : List Nat) : List Nat → Int → List Nat →
    List Nat × Option GoError
  | [], dstSize, acc =>
    if dstSize ≠ 0 then
      (acc, some (.genericE "corrupt binary delta: insufficient or extra data"))
    else (acc, none)
  | op :: rest, dstSize, acc =>
    if op = 0 then (acc, some (.genericE "invalid delta opcode 0"))
    else if op &&& 0x80 = 0x80 then
      match hc : applyBinaryDeltaCopy op rest src with
      | (_, _, some e, w) => (acc ++ w, some e)
      | (n, rest2, none, w) => applyBinaryDeltaLoop src rest2 (dstSize - n) (acc ++ w)
    else
      match ha : applyBinaryDeltaAdd op rest with
      | (_, _, some e, w) => (acc ++ w, some e)
      | (n, rest2, none, w) => applyBinaryDeltaLoop src rest2 (dstSize - n) (acc ++ w)
termination_by delta _ _ => delta.length
decreasing_by
  · have := applyBinaryDeltaCopy_rest_le op rest src
    rw [hc] at this
    simpa using Nat.lt_succ_of_le this
  · have := applyBinaryDeltaAdd_rest_le op rest
    rw [ha] at this
    simpa using Nat.lt_succ_of_le this

/-- Go `applyBinaryDeltaFragment`: parses the source and destination sizes,
checks the source size and interprets the opcode stream. -/
def applyBinaryDeltaFragment (src : List Nat) (frag : List Nat) :
    List Nat × Option GoError :=
  let p1 := readBinaryDeltaSize frag
  match checkBinarySrcSize p1.1 src with
  | some e => ([], some e)
  | none =>
    let p2 := readBinaryDeltaSize p1.2
    applyBinaryDeltaLoop src p2.2 p2.1 []

/-- Go `BinaryFragment.Apply`: literal fragments write their data, delta
fragments run the delta interpreter. -/
def BinaryFragment.apply (f : BinaryFragment) (src : List Nat) :
    List Nat × Option GoError :=
  if f.method = binaryPatchLiteral then (f.data, none)
  else if f.method = binaryPatchDelta then
    match applyBinaryDeltaFragment src f.data with
    | (out, some e) => (out, applyError (some e) [])
    | (out, none) => (out, none)
  else ([], applyError (some (.genericE "unsupported binary patch method")) [])

/-! ### File records and the Git header parser (gitdiff.go, file_header.go)

The `File` record; `OldOIDPrefix`/`NewOIDPrefix` appear here as
`oldOIDPfx`/`newOIDPfx`. -/

/-- Changes to a single file (`File` in gitdiff.go). -/
structure File where
  oldName : String := ""
  newName : String := ""
  isNew : Bool := false
  isDelete : Bool := false
  isCopy : Bool := false
  isRename : Bool := false
  oldMode : Int := 0
  newMode : Int := 0
  oldOIDPfx : String := ""
  newOIDPfx : String := ""
  score : Int := 0
  textFragments : List TextFragment := []
  isBinary : Bool := false
  binaryFragment : Option BinaryFragment := none
  reverseBinaryFragment : Option BinaryFragment := none
deriving DecidableEq, Repr

/-- Go `devNull`. -/
def devNull : String := "/dev/null"

/-- Error kinds of Go `strconv.ParseInt` (`ErrSyntax` / `ErrRange`). -/
inductive NumErr where
  | syntaxE : NumErr
  | rangeE : NumErr
deriving DecidableEq, Repr

/-- Value of a digit character for bases up to 36, as `strconv` accepts. -/
def digitVal (c : Char) : Option Nat :=
  if '0' ≤ c ∧ c ≤ '9' then some (c.toNat - '0'.toNat)
  else if 'a' ≤ c ∧ c ≤ 'z' then some (c.toNat - 'a'.toNat + 10)
  else if 'A' ≤ c ∧ c ≤ 'Z' then some (c.toNat - 'A'.toNat + 10)
  else none

/-- Digit-string accumulation for `strconv.ParseInt` with an explicit base. -/
def goParseDigits (base : Nat) : List Char → Nat → Option Nat
  | [], acc => some acc
  | c :: rest, acc =>
    match digitVal c with
    | some d => if d < base then goParseDigits base rest (acc * base + d) else none
    | none => none

/-- Model of Go `strconv.ParseInt(s, base, bitSize)` for an explicit base
(no base prefixes apply): optional sign, then a non-empty run of digits
of the base, range-checked against the bit size. -/
def goParseInt (s : String) (base bitSz : Nat) : Except NumErr Int :=
  let cs := s.toList
  let signed : Bool × List Char :=
    match cs with
    | '+' :: rest => (false, rest)
    | '-' :: rest => (true, rest)
    | rest => (false, rest)
  if signed.2.isEmpty then .error .syntaxE
  else
    match goParseDigits base signed.2 0 with
    | none => .error .syntaxE
    | some v =>
      let val : Int := if signed.1 then -(v : Int) else (v : Int)
      if val < -(2 ^ (bitSz - 1)) ∨ 2 ^ (bitSz - 1) - 1 < val then .error .rangeE
      else .ok val

/-- Strip one trailing newline (the Go header code tests the final byte of
the line and slices it off). -/
def strTrimNL (s : String) : String :=
  match s.toList.getLast? with
  | some '\n' => String.mk s.toList.dropLast
  | _ => s

/-- Go `strings.HasPrefix` (ASCII inputs, so characters equal bytes). -/
def strHasPre (s pre : String) : Bool :=
  s.toList.take pre.toList.length = pre.toList

/-- Slicing off a prefix of known length, Go `s[n:]` (ASCII inputs). -/
def strDropN (s : String) (n : Nat) : String :=
  String.mk (s.toList.drop n)

/-- Split at the first occurrence of a separator (`strings.SplitN` with
`n = 2`), on character lists. -/
def splitOnceList (sep : List Char) : List Char → Option (List Char × List Char)
  | [] => none
  | c :: rest =>
    if (c :: rest).take sep.length = sep then some ([], (c :: rest).drop sep.length)
    else
      match splitOnceList sep rest with
      | none => none
      | some (pre, post) => some (c :: pre, post)

/-- Go `strings.SplitN(s, sep, 2)` for a non-empty separator. -/
def splitN2 (s sep : String) : List String :=
  match splitOnceList sep.toList s.toList with
  | none => [s]
  | some (pre, post) => [String.mk pre, String.mk post]

/-- Unescape the body of a Go double-quoted string: the escape handling of
`strconv.Unquote` (letter escapes, octal, hex and unicode escapes). -/
def unquoteChars : List Char → Option (List Char)
  | [] => some []
  | '\\' :: esc =>
    match esc with
    | 'a' :: rest => (Char.ofNat 7 :: ·) <$> unquoteChars rest
    | 'b' :: rest => (Char.ofNat 8 :: ·) <$> unquoteChars rest
    | 'f' :: rest => (Char.ofNat 12 :: ·) <$> unquoteChars rest
    | 'n' :: rest => ('\n' :: ·) <$> unquoteChars rest
    | 'r' :: rest => ('\r' :: ·) <$> unquoteChars rest
    | 't' :: rest => ('\t' :: ·) <$> unquoteChars rest
    | 'v' :: rest => (Char.ofNat 11 :: ·) <$> unquoteChars rest
    | '\\' :: rest => ('\\' :: ·) <$> unquoteChars rest
    | '\'' :: rest => ('\'' :: ·) <$> unquoteChars rest
    | '"' :: rest => ('"' :: ·) <$> unquoteChars rest
    | 'x' :: h1 :: h2 :: rest =>
      match digitVal h1, digitVal h2 with
      | some d1, some d2 =>
        if d1 < 16 ∧ d2 < 16 then (Char.ofNat (d1 * 16 + d2) :: ·) <$> unquoteChars rest
        else none
      | _, _ => none
    | o1 :: o2 :: o3 :: rest =>
      match digitVal o1, digitVal o2, digitVal o3 with
      | some d1, some d2, some d3 =>
        if d1 < 8 ∧ d2 < 8 ∧ d3 < 8 then
          (Char.ofNat (d1 * 64 + d2 * 8 + d3) :: ·) <$> unquoteChars rest
        else none
      | _, _, _ => none
    | _ => none
  | '"' :: _ => none
  | '\n' :: _ => none
  | c :: rest => (c :: ·) <$> unquoteChars rest

/-- Model of Go `strconv.Unquote` on a double-quoted string. -/
def goUnquote (s : String) : Option String :=
  match s.toList with
  | '"' :: rest =>
    match rest.getLast? with
    | some '"' => (String.mk ·) <$> unquoteChars rest.dropLast
    | _ => none
  | _ => none

/-- The closing-quote scan of `parseName`: walks the characters from index
`n` (carrying the previous character to detect escapes) and returns the
index just past the first unescaped closing quote, or the string length
if there is none. -/
def findCloseQuote : List Char → Char → Nat → Nat
  | [], _, n => n
  | c :: rest, prev, n =>
    if c = '"' ∧ prev ≠ '\\' then n + 1
    else findCloseQuote rest c (n + 1)

/-- The terminator scan of `parseName`: the index of the first occurrence
of the terminator (or of a space or tab when `term` is negative). -/
def findNameEnd (term : Int) : List Char → Nat → Nat
  | [], n => n
  | c :: rest, n =>
    if 0 ≤ term ∧ (c.toNat : Int) = term then n
    else if term < 0 ∧ (c = ' ' ∨ c = '\t') then n
    else findNameEnd term rest (n + 1)

/-- The builder loop of Go `cleanName`: removes duplicate slashes and drops
prefix segments (resetting the output at each dropped segment). -/
def cleanNameAux : List Char → Nat → List Char → List Char
  | [], _, acc => acc
  | '/' :: rest, dropN, acc =>
    match rest with
    | '/' :: _ => cleanNameAux rest dropN acc
    | _ =>
      if dropN > 0 then cleanNameAux rest (dropN - 1) []
      else cleanNameAux rest dropN (acc ++ ['/'])
  | c :: rest, dropN, acc => cleanNameAux rest dropN (acc ++ [c])

/-- Go `cleanName`. -/
def cleanName (name : String) (dropN : Nat) : String :=
  String.mk (cleanNameAux name.toList dropN [])

/-- Go `parseName`: extracts a (quoted or unquoted) file name from the
start of a string, returning the name and the index after it. -/
def parseName (s : String) (term : Int) (dropN : Nat) : Except String (String × Nat) :=
  let cs := s.toList
  let quoted : Except String (String × Nat) :=
    if cs.getD 0 ' ' = '"' then
      let n := findCloseQuote (cs.drop 1) '"' 1
      if n = 2 then .error "missing name"
      else
        match goUnquote (String.mk (cs.take n)) with
        | none => .error "invalid quoted name"
        | some name => .ok (name, n)
    else
      let n := findNameEnd term cs 0
      if n = 0 then .error "missing name"
      else .ok (String.mk (cs.take n), n)
  match quoted with
  | .error e => .error e
  | .ok (name, n) =>
    if name = devNull then .ok (name, n)
    else .ok (cleanName name dropN, n)

/-- Go `verifyGitHeaderName`: checks a parsed name against state set by
previous header lines; returns an error message or `none`. -/
def verifyGitHeaderName (parsed existing : String) (isNull : Bool) (side : String) :
    Option String :=
  if existing ≠ "" then
    if isNull then some ("expected " ++ devNull ++ ", but filename is set to " ++ existing)
    else if existing ≠ parsed then some ("inconsistent " ++ side ++ " filename")
    else if isNull ∧ parsed ≠ devNull then some ("expected " ++ devNull)
    else none
  else if isNull ∧ parsed ≠ devNull then some ("expected " ++ devNull)
  else none

/-- Go `parseGitHeaderName`: extracts the default file name from the two
paths of a `diff --git` line, empty when they do not match. -/
def parseGitHeaderName (header : String) : Except String String :=
  match parseName header (-1) 1 with
  | .error e => .error e
  | .ok (firstName, n) =>
    let cs := header.toList
    let n := if n < cs.length ∧ (cs.getD n ' ' = ' ' ∨ cs.getD n ' ' = '\t') then n + 1 else n
    match parseName (String.mk (cs.drop n)) (-1) 1 with
    | .error e => .error e
    | .ok (secondName, _) =>
      if firstName ≠ secondName then .ok ""
      else .ok firstName

/-- Go `parseMode`: octal `strconv.ParseInt` with 32-bit width. -/
def parseMode (s : String) : Except String Int :=
  match goParseInt s 8 32 with
  | .error .syntaxE => .error "invalid mode line: invalid syntax"
  | .error .rangeE => .error "invalid mode line: value out of range"
  | .ok v => .ok v

/-- Go `parseGitHeaderOldName`. -/
def parseGitHeaderOldName (f : File) (line defaultName : String) : Except String File :=
  match parseName line 9 1 with
  | .error e => .error e
  | .ok (name, _) =>
    if f.oldName = "" ∧ ¬f.isNew then .ok { f with oldName := name }
    else
      match verifyGitHeaderName name f.oldName f.isNew "old" with
      | some e => .error e
      | none => .ok f

/-- Go `parseGitHeaderNewName`. -/
def parseGitHeaderNewName (f : File) (line defaultName : String) : Except String File :=
  match parseName line 9 1 with
  | .error e => .error e
  | .ok (name, _) =>
    if f.newName = "" ∧ ¬f.isDelete then .ok { f with newName := name }
    else
      match verifyGitHeaderName name f.newName f.isDelete "new" with
      | some e => .error e
      | none => .ok f

/-- Go `parseGitHeaderOldMode`. -/
def parseGitHeaderOldMode (f : File) (line defaultName : String) : Except String File :=
  (fun m => { f with oldMode := m }) <$> parseMode line

/-- Go `parseGitHeaderNewMode`. -/
def parseGitHeaderNewMode (f : File) (line defaultName : String) : Except String File :=
  (fun m => { f with newMode := m }) <$> parseMode line

/-- Go `parseGitHeaderDeletedMode`. -/
def parseGitHeaderDeletedMode (f : File) (line defaultName : String) : Except String File :=
  parseGitHeaderOldMode { f with isDelete := true, oldName := defaultName } line defaultName

/-- Go `parseGitHeaderCreatedMode`. -/
def parseGitHeaderCreatedMode (f : File) (line defaultName : String) : Except String File :=
  parseGitHeaderNewMode { f with isNew := true, newName := defaultName } line defaultName

/-- Go `parseGitHeaderCopyFrom`. -/
def parseGitHeaderCopyFrom (f : File) (line defaultName : String) : Except String File :=
  match parseName line (-1) 0 with
  | .error e => .error e
  | .ok (name, _) => .ok { f with isCopy := true, oldName := name }

/-- Go `parseGitHeaderCopyTo`. -/
def parseGitHeaderCopyTo (f : File) (line defaultName : String) : Except String File :=
  match parseName line (-1) 0 with
  | .error e => .error e
  | .ok (name, _) => .ok { f with isCopy := true, newName := name }

/-- Go `parseGitHeaderRenameFrom`. -/
def parseGitHeaderRenameFrom (f : File) (line defaultName : String) : Except String File :=
  match parseName line (-1) 0 with
  | .error e => .error e
  | .ok (name, _) => .ok { f with isRename := true, oldName := name }

/-- Go `parseGitHeaderRenameTo`. -/
def parseGitHeaderRenameTo (f : File) (line defaultName : String) : Except String File :=
  match parseName line (-1) 0 with
  | .error e => .error e
  | .ok (name, _) => .ok { f with isRename := true, newName := name }

/-- Go `parseGitHeaderScore` as it appears in file_header.go: the value is
parsed with `strconv.ParseInt` directly (no trimming of a `%` suffix)
and stored only when it is at most 100. -/
def parseGitHeaderScore (f : File) (line defaultName : String) : Except String File :=
  match goParseInt line 10 32 with
  | .error .syntaxE => .error "invalid score line: invalid syntax"
  | .error .rangeE => .error "invalid score line: value out of range"
  | .ok v => .ok (if v ≤ 100 then { f with score := v } else f)

/-- Go `parseGitHeaderIndex`. -/
def parseGitHeaderIndex (f : File) (line defaultName : String) : Except String File :=
  let parts := splitN2 line " "
  let oids := splitN2 (parts.getD 0 "") ".."
  if oids.length < 2 then .error "invalid index line: missing seperator"
  else
    let f := { f with oldOIDPfx := oids.getD 0 "", newOIDPfx := oids.getD 1 "" }
    if parts.length > 1 then parseGitHeaderOldMode f (parts.getD 1 "") defaultName
    else .ok f

/-- Go `parseGitHeaderData`: strips the trailing newline and dispatches on
the prefix-keyed header table; returns whether the header block ended
and the updated file. -/
def parseGitHeaderData (f : File) (line defaultName : String) :
    Except String (Bool × File) :=
  let line := strTrimNL line
  if strHasPre line "@@ -" then .ok (true, f)
  else if strHasPre line "--- " then
    (false, ·) <$> parseGitHeaderOldName f (strDropN line 4) defaultName
  else if strHasPre line "+++ " then
    (false, ·) <$> parseGitHeaderNewName f (strDropN line 4) defaultName
  else if strHasPre line "old mode " then
    (false, ·) <$> parseGitHeaderOldMode f (strDropN line 9) defaultName
  else if strHasPre line "new mode " then
    (false, ·) <$> parseGitHeaderNewMode f (strDropN line 9) defaultName
  else if strHasPre line "deleted file mode " then
    (false, ·) <$> parseGitHeaderDeletedMode f (strDropN line 18) defaultName
  else if strHasPre line "new file mode " then
    (false, ·) <$> parseGitHeaderCreatedMode f (strDropN line 14) defaultName
  else if strHasPre line "copy from " then
    (false, ·) <$> parseGitHeaderCopyFrom f (strDropN line 10) defaultName
  else if strHasPre line "copy to " then
    (false, ·) <$> parseGitHeaderCopyTo f (strDropN line 8) defaultName
  else if strHasPre line "rename old " then
    (false, ·) <$> parseGitHeaderRenameFrom f (strDropN line 11) defaultName
  else if strHasPre line "rename new " then
    (false, ·) <$> parseGitHeaderRenameTo f (strDropN line 11) defaultName
  else if strHasPre line "rename from " then
    (false, ·) <$> parseGitHeaderRenameFrom f (strDropN line 12) defaultName
  else if strHasPre line "rename to " then
    (false, ·) <$> parseGitHeaderRenameTo f (strDropN line 10) defaultName
  else if strHasPre line "similarity index " then
    (false, ·) <$> parseGitHeaderScore f (strDropN line 17) defaultName
  else if strHasPre line "dissimilarity index " then
    (false, ·) <$> parseGitHeaderScore f (strDropN line 20) defaultName
  else if strHasPre line "index " then
    (false, ·) <$> parseGitHeaderIndex f (strDropN line 6) defaultName
  else .ok (true, f)

/-- Modelled from the spec: the name fixups after a Git header block ends
(spec 4.3): when both names are empty the default path must be set and
fills both; a missing name on a non-delete/non-create side fails. -/
def finalizeGitHeader (f : File) (defaultName : String) : Except String File :=
  if f.oldName = "" ∧ f.newName = "" then
    if defaultName = "" then .error "unable to determine file name"
    else .ok { f with oldName := defaultName, newName := defaultName }
  else if f.newName = "" ∧ ¬f.isDelete then .error "missing filename information"
  else if f.oldName = "" ∧ ¬f.isNew then .error "missing filename information"
  else .ok f

/-- Modelled from the spec: the metadata-line loop of the current
`parser.ParseGitFileHeader`, whose driver is not among the provided
sources (only its helpers in file_header.go are): consume lines while
`parseGitHeaderData` matches them, stop at the first non-matching line
or hunk header, then run the name fixups (spec 4.3). -/
def parseGitHeaderLoop (f : File) (defaultName : String) : List String → Except String File
  | [] => finalizeGitHeader f defaultName
  | l :: rest =>
    match parseGitHeaderData f l defaultName with
    | .error e => .error e
    | .ok (true, f2) => finalizeGitHeader f2 defaultName
    | .ok (false, f2) => parseGitHeaderLoop f2 defaultName rest

/-- Modelled from the spec: `parser.ParseGitFileHeader` (spec 4.2 item 2 and
4.3): a line starting with the Git file header marker opens a file; the
default path comes from the remainder of that line via
`parseGitHeaderName`, and the following metadata lines populate the
file record. -/
def parseGitFileHeader (lines : List String) : Except String File :=
  match lines with
  | [] => .error "missing git file header"
  | hdr :: rest =>
    if strHasPre hdr "diff --git " then
      match parseGitHeaderName (strTrimNL (strDropN hdr 11)) with
      | .error e => .error e
      | .ok defaultName => parseGitHeaderLoop {} defaultName rest
    else .error "not a git file header"

/-- Go `parser.ParseBinaryMarker` (part_016): the switch on the current
line recognizing the binary marker lines, returning `(isBinary, hasData)`. -/
def parseBinaryMarker (line0 : String) : Bool × Bool :=
  if line0 = "GIT binary patch\n" then (true, true)
  else if line0 = "Binary files differ\n" then (true, false)
  else if line0 = "Files differ\n" then (true, false)
  else (false, false)

/-! ### Error matching (`Conflict.Is`, `errors.Is`) -/

/-- Go `Conflict.Is` for a conflict with message `msg`: true exactly for a
`*Conflict` target whose message is empty or equal to `msg`. -/
def conflictIs (msg : String) (other : GoError) : Bool :=
  match other with
  | .conflict m => m = "" || m = msg
  | _ => false

/-- Model of `errors.Is(err, &Conflict{targetMsg})`: pointer equality of
distinct error values is false, a `*Conflict` is matched through its
`Is` method, and an `*ApplyError` is unwrapped to its cause. -/
def errorsIsConflict (err : GoError) (targetMsg : String) : Bool :=
  match err with
  | .conflict m => conflictIs m (.conflict targetMsg)
  | .applyE _ _ _ cause => errorsIsConflict cause targetMsg
  | _ => false

/-! ### Specification-side helpers for `applyError` (C10) -/

/-- The line-number payload of an argument, if it is one. -/
def selLine : ApplyArg → Option Int
  | .lineNum n => some n
  | _ => none

/-- The fragment-number payload of an argument, if it is one. -/
def selFrag : ApplyArg → Option Int
  | .fragNum n => some n
  | _ => none

/-- The fragment-line payload of an argument, if it is one. -/
def selFragLine : ApplyArg → Option Int
  | .fragLineNum n => some n
  | _ => none

/-- The payload of the last argument of a given kind in the list. -/
def lastArg (p : ApplyArg → Option Int) : List ApplyArg → Option Int
  | [] => none
  | a :: rest =>
    match lastArg p rest with
    | some v => some v
    | none => p a

/-- The field value `applyError` should leave behind: one more than the
last supplied zero-indexed position of that kind, or the previous value
when none is supplied. -/
def argField (p : ApplyArg → Option Int) (args : List ApplyArg) (old : Int) : Int :=
  match lastArg p args with
  | some v => v + 1
  | none => old

/-! ### Concrete inputs used by the claim theorems -/

/-- The hunk of spec seed scenarios 5 and 6:
`@@ -1,3 +1,3 @@` with lines ` ctx`, `-old`, `+new`, ` ctx`. -/
def fragModify : TextFragment where
  oldPosition := 1
  oldLines := 3
  newPosition := 1
  newLines := 3
  linesAdded := 1
  linesDeleted := 1
  leadingContext := 1
  trailingContext := 1
  lines := [Line.mk opContext "ctx\n", Line.mk opDelete "old\n",
    Line.mk opAdd "new\n", Line.mk opContext "ctx\n"]

/-- A valid file-creation fragment: `@@ -0,0 +1,1 @@` adding one line. -/
def fragCreate : TextFragment where
  oldPosition := 0
  oldLines := 0
  newPosition := 1
  newLines := 1
  linesAdded := 1
  lines := [Line.mk opAdd "x\n"]

/-- A valid fragment consisting of a single context line
(`@@ -1,1 +1,1 @@` with line ` a`): the code counts its context line as
leading context and stores trailing context 0. -/
def fragAllCtx : TextFragment where
  oldPosition := 1
  oldLines := 1
  newPosition := 1
  newLines := 1
  leadingContext := 1
  trailingContext := 0
  lines := [Line.mk opContext "a\n"]

/-- The lines of the golden rename patch of spec seed scenario 3 (a
byte-exact `git diff` output: the similarity line carries a `%`). -/
def renamePatchLines : List String :=
  ["diff --git a/foo b/bar\n", "similarity index 100%\n",
   "rename from foo\n", "rename to bar\n"]

/-! ## Theorems settling the claims -/

set_option maxRecDepth 8000

/-- Claim C5: when an apply fails, the returned ApplyError carries 1-indexed
positions: applying the hunk `@@ -1,3 +1,3 @@` with lines
` ctx`, `-old`, `+new`, ` ctx` to the source `"ctx\nXXX\nctx\n"` fails
with Line = 2, Fragment = 1, FragmentLine = 2, wrapping the conflict
for the mismatched source line. -/
theorem applyError_positions_example :
    (fileApplyStrictText [fragModify] 0 (mkReader ["ctx\n", "XXX\n", "ctx\n"]) "").err =
      some (.applyE 2 1 2 (.conflict "fragment line does not match src line")) := by
  rfl

/-- Claim C6 (failing part): `ParseBinaryMarker` does not recognize the
path-carrying marker line `Binary files a/X and b/Y differ\n`; contrary
to the claim (and to the repository's own test, which expects
`IsBinary = true` for this line), the switch falls through to the
default case and reports a non-binary file. The two exact marker lines
of the claim are recognized. -/
theorem parseBinaryMarker_paths_line :
    parseBinaryMarker "Binary files a/foo.bin and b/foo.bin differ\n" = (false, false) ∧
    parseBinaryMarker "Binary files differ\n" = (true, false) ∧
    parseBinaryMarker "Files differ\n" = (true, false) := by
  exact ⟨rfl, rfl, rfl⟩

/-- Claim C7 (failing part): `parseGitHeaderScore` does not trim a trailing
`%` before parsing, so the header line `similarity index 88%` (the form
Git emits, and the form the repository's own test expects to produce
score 88) fails with a syntax error instead of storing the score. A
bare value without `%` parses, and a value over 100 leaves the score
unchanged without an error. -/
theorem parseGitHeaderScore_percent_fails :
    parseGitHeaderData {} "similarity index 88%\n" "" =
      .error "invalid score line: invalid syntax" ∧
    parseGitHeaderScore {} "88" "" = .ok { score := 88 } ∧
    parseGitHeaderScore {} "9001" "" = .ok {} := by
  exact ⟨rfl, rfl, rfl⟩

/-- Claim C3 (failing part): parsing the golden rename patch of spec seed
scenario 3 (a byte-exact `git diff` output whose similarity line ends
in `%`) fails in the header parser with a score syntax error, so
`Parse` returns no files for it and formatting the parsed result cannot
reproduce the patch. -/
theorem parse_rename_patch_fails :
    parseGitFileHeader renamePatchLines = .error "invalid score line: invalid syntax" := by
  rfl

/-- Claim C9: conflict matching treats the empty Conflict as a wildcard:
`errors.Is(c, &Conflict{})` is true for every conflict `c`, and
`Conflict.Is` accepts exactly the `*Conflict` targets whose message is
empty or equal to the receiver's, rejecting every non-Conflict error. -/
theorem conflict_is_spec :
    (∀ m : String, errorsIsConflict (.conflict m) "" = true) ∧
    (∀ (m : String) (tgt : GoError),
      conflictIs m tgt = true ↔ tgt = .conflict "" ∨ tgt = .conflict m) := by
  refine ⟨fun m => ?_, fun m tgt => ?_⟩
  · simp [errorsIsConflict, conflictIs]
  · cases tgt <;> simp [conflictIs]

theorem applyErrorFold_eq (args : List ApplyArg) :
    ∀ l fg fl : Int,
      applyErrorFold args l fg fl =
        (argField selLine args l, argField selFrag args fg, argField selFragLine args fl) := by
  induction args with
  | nil => intro l fg fl; simp [applyErrorFold, argField, lastArg]
  | cons a rest ih =>
    intro l fg fl
    cases a <;>
      cases h1 : lastArg selLine rest <;>
      cases h2 : lastArg selFrag rest <;>
      cases h3 : lastArg selFragLine rest <;>
      simp [applyErrorFold, ih, argField, lastArg, selLine, selFrag, selFragLine, h1, h2, h3]

/-- Claim C10: `applyError` never nests ApplyErrors: nil stays nil; an
existing ApplyError is returned with its wrapped cause unchanged and
only the position fields selected by the arguments modified (each set
to the zero-indexed value plus 1, the last argument of a kind winning,
unnamed fields unchanged); any other error is wrapped once, and the
wrapped cause is never itself an ApplyError. -/
theorem applyError_spec :
    (∀ args, applyError none args = none) ∧
    (∀ (l fg fl : Int) (cause : GoError) (args : List ApplyArg),
      applyError (some (.applyE l fg fl cause)) args =
        some (.applyE (argField selLine args l) (argField selFrag args fg)
          (argField selFragLine args fl) cause)) ∧
    (∀ (e : GoError) (args : List ApplyArg), e.isApplyE = false →
      applyError (some e) args =
        some (.applyE (argField selLine args 0) (argField selFrag args 0)
          (argField selFragLine args 0) (wrapEOF e)) ∧
      (wrapEOF e).isApplyE = false) := by
  refine ⟨fun args => rfl, fun l fg fl cause args => ?_, fun e args he => ⟨?_, ?_⟩⟩
  · simp [applyError, applyErrorFold_eq]
  · cases e <;> simp_all [applyError, applyErrorFold_eq, GoError.isApplyE, wrapEOF]
  · cases e <;> simp_all [GoError.isApplyE, wrapEOF]

/-- Claim C10 witness: the non-ApplyError case at a concrete input: an
`io.EOF` cause is wrapped once as unexpected EOF with the supplied
positions set and is itself not an ApplyError. -/
theorem applyError_spec_witness :
    GoError.isApplyE .eofE = false ∧
    applyError (some .eofE) [.lineNum 4, .fragLineNum 1] =
      some (.applyE 5 0 2 .unexpectedEOF) ∧
    GoError.isApplyE (wrapEOF .eofE) = false := by
  refine ⟨rfl, ?_, ?_⟩
  · have h := (applyError_spec.2.2 .eofE [.lineNum 4, .fragLineNum 1] rfl).1
    simpa using h
  · exact (applyError_spec.2.2 .eofE [.lineNum 4, .fragLineNum 1] rfl).2

theorem wf_head_proper (l : String) (rest : List String)
    (h : wfSource (l :: rest) = true) : properLine l = true := by
  cases rest <;> simp [wfSource] at h ⊢ <;> tauto

theorem wf_tail (l : String) (rest : List String)
    (h : wfSource (l :: rest) = true) : wfSource rest = true := by
  cases rest with
  | nil => rfl
  | cons b bs => simp [wfSource] at h ⊢; tauto

theorem properLine_ne_empty (l : String) (h : properLine l = true) : l ≠ "" := by
  intro hc
  subst hc
  simp [properLine] at h

theorem readAt_char (src : List Nat) (count : Nat) (start : Int) (h : ¬ start < 0) :
    readAt src count start = ((src.drop start.toNat).take count,
      min count (src.length - start.toNat),
      if min count (src.length - start.toNat) < count then some .eofE else none) := by
  unfold readAt
  simp [h, Nat.min_comm]

theorem checkBinarySrcSize_nonneg (size : Int) (src : List Nat) (h0 : 0 ≤ size) :
    checkBinarySrcSize size src =
      if size = (src.length : Int) then none
      else some (.conflict "fragment src size does not match actual src size") := by
  by_cases hpos : size > 0
  · have hstart : (if size > 0 then size - 1 else size) = size - 1 := if_pos hpos
    have hs : ¬ (size - 1 < 0) := by omega
    simp only [checkBinarySrcSize, hstart, readAt_char src 2 (size - 1) hs]
    have h3 : min 2 (src.length - (size - 1).toNat) = 0 ∨
        min 2 (src.length - (size - 1).toNat) = 1 ∨
        min 2 (src.length - (size - 1).toNat) = 2 := by omega
    rcases h3 with h3 | h3 | h3 <;> rw [h3]
    · have hne : ¬ size = (src.length : Int) := by omega
      simp [hpos, hne]
      omega
    · have heq : size = (src.length : Int) := by omega
      simp [hpos, heq]
      intro hc
      subst hc
      simp at heq
      omega
    · have hne : ¬ size = (src.length : Int) := by omega
      simp [hpos, hne]
  · have hz : size = 0 := by omega
    subst hz
    have hstart : ((if (0 : Int) > 0 then (0 : Int) - 1 else 0)) = 0 := by norm_num
    simp only [checkBinarySrcSize, hstart, readAt_char src 2 0 (by omega)]
    have h3 : min 2 (src.length - (0 : Int).toNat) = 0 ∨
        min 2 (src.length - (0 : Int).toNat) = 1 ∨
        min 2 (src.length - (0 : Int).toNat) = 2 := by omega
    rcases h3 with h3 | h3 | h3 <;> rw [h3]
    · have hlen : src.length = 0 := by omega
      simp [hlen]
    · have hne : ¬ ((0 : Int) = (src.length : Int)) := by omega
      simp [hne]
    · have hne : ¬ ((0 : Int) = (src.length : Int)) := by omega
      simp [hne]

theorem checkBinarySrcSize_neg (size : Int) (src : List Nat) (h : size < 0) :
    checkBinarySrcSize size src = some (.genericE "bytes.Reader.ReadAt: negative offset") := by
  have h1 : (if size > 0 then size - 1 else size) = size := by
    rw [if_neg]; omega
  simp only [checkBinarySrcSize, h1]
  unfold readAt
  rw [if_pos h]
  simp

/-- Claim C8: the delta-method source size check passes exactly when the
size declared at the start of the delta stream equals the actual source
length (the check reads one byte at offset size−1 and demands that EOF
immediately follow, or an empty source for size 0); on a mismatched
non-negative declared size `applyBinaryDeltaFragment` fails with the
conflict `fragment src size does not match actual src size` and
produces no output. -/
theorem binary_delta_src_size :
    (∀ (size : Int) (src : List Nat),
      checkBinarySrcSize size src = none ↔ size = (src.length : Int)) ∧
    (∀ (src frag : List Nat),
      0 ≤ (readBinaryDeltaSize frag).1 →
      (readBinaryDeltaSize frag).1 ≠ (src.length : Int) →
        applyBinaryDeltaFragment src frag =
          ([], some (.conflict "fragment src size does not match actual src size"))) := by
  constructor
  · intro size src
    rcases Int.lt_or_le size 0 with hneg | h0
    · rw [checkBinarySrcSize_neg size src hneg]
      constructor
      · intro h; cases h
      · intro h; omega
    · rw [checkBinarySrcSize_nonneg size src h0]
      by_cases h : size = (src.length : Int) <;> simp [h]
  · intro src frag h0 hne
    simp only [applyBinaryDeltaFragment]
    rw [checkBinarySrcSize_nonneg _ _ h0]
    simp [hne]

/-- Claim C4: applying a validated file-creation fragment (old position 0,
hence old lines 0) to a source that still has at least one line to read
fails with the conflict `cannot create new file from non-empty src`
(wrapped at source line 1). -/
theorem applyStrict_creation_nonempty_conflict (f : TextFragment) (src : List String)
    (hv : validate f = none) (hpos : f.oldPosition = 0) (hol : f.oldLines = 0)
    (hwf : wfSource src = true) (hne : src ≠ []) :
    (f.applyStrict (mkReader src)).err =
      some (.applyE 1 0 0 (.conflict "cannot create new file from non-empty src")) := by
  obtain ⟨l, rest, rfl⟩ : ∃ l rest, src = l :: rest := by
    cases src with
    | nil => exact absurd rfl hne
    | cons a b => exact ⟨a, b, rfl⟩
  have hl : l ≠ "" := properLine_ne_empty l (wf_head_proper l rest hwf)
  simp only [TextFragment.applyStrict, hv, hpos, mkReader, copyLines, copyLinesGo]
  by_cases hnl : endsWithNL l = true
  · have c1 : ¬ ((0 : Int) = 0 - 1) := by norm_num
    have c2 : (0 : Int) > 0 - 1 := by norm_num
    have c3 : (0 : Int) - 1 < 0 := by norm_num
    simp [hnl, c1, c2, c3, applyError, applyErrorFold, wrapEOF]
  · have c2 : ¬ ((0 : Int) = 0 - 1) := by norm_num
    have c3 : (0 : Int) > 0 - 1 := by norm_num
    have c4 : (0 : Int) - 1 < 0 := by norm_num
    simp [hnl, copyLinesEOF, hl, c2, c3, c4, applyError, applyErrorFold, wrapEOF]

/-- Claim C4 witness: the creation fragment `@@ -0,0 +1,1 @@ +x` applied to
the one-line source `y` conflicts as the claim states. -/
theorem applyStrict_creation_nonempty_conflict_witness :
    validate fragCreate = none ∧ fragCreate.oldPosition = 0 ∧ fragCreate.oldLines = 0 ∧
    wfSource ["y\n"] = true ∧ ["y\n"] ≠ ([] : List String) ∧
    (fragCreate.applyStrict (mkReader ["y\n"])).err =
      some (.applyE 1 0 0 (.conflict "cannot create new file from non-empty src")) := by
  refine ⟨by rfl, by rfl, by rfl, by rfl, by simp, ?_⟩
  exact applyStrict_creation_nonempty_conflict fragCreate ["y\n"] (by rfl) (by rfl) (by rfl)
    (by rfl) (by simp)

/-- Claim C8 witness: a delta stream declaring source size 4 against a
3-byte source fails with the size conflict and writes nothing, while
the check passes for the correct size 3. -/
theorem binary_delta_src_size_witness :
    (0 : Int) ≤ (readBinaryDeltaSize [4, 2, 1, 65]).1 ∧
    (readBinaryDeltaSize [4, 2, 1, 65]).1 ≠ (([1, 2, 3] : List Nat).length : Int) ∧
    applyBinaryDeltaFragment [1, 2, 3] [4, 2, 1, 65] =
      ([], some (.conflict "fragment src size does not match actual src size")) ∧
    checkBinarySrcSize (readBinaryDeltaSize [3, 2, 1, 65]).1 [1, 2, 3] = none := by
  refine ⟨by decide, by decide, ?_, ?_⟩
  · exact binary_delta_src_size.2 [1, 2, 3] [4, 2, 1, 65] (by decide) (by decide)
  · exact (binary_delta_src_size.1 (readBinaryDeltaSize [3, 2, 1, 65]).1 [1, 2, 3]).2
      (by decide)


theorem takeWhile_append_len {α} (p : α → Bool) (xs ys : List α) :
    ((xs ++ ys).takeWhile p).length =
      if xs.all p then xs.length + (ys.takeWhile p).length
      else (xs.takeWhile p).length := by
  induction xs with
  | nil => simp
  | cons a xs ih =>
    by_cases hp : p a
    · by_cases hall : xs.all p <;> simp [List.takeWhile_cons, hp, ih, hall] <;> omega
    · simp [List.takeWhile_cons, hp]

theorem all_ctx_iff (ls : List Line) (hval : opsValid ls = true) :
    (∀ x ∈ ls, x.op = opContext) ↔ hasChange ls = false := by
  induction ls with
  | nil => simp [hasChange]
  | cons l rest ih =>
    have hv : (l.op = opContext ∨ l.op = opAdd ∨ l.op = opDelete) ∧ opsValid rest = true := by
      simpa [opsValid, List.all_cons, or_assoc] using hval
    rcases hv with ⟨hop, hrest⟩
    rcases hop with hop | hop | hop
    · have e2 : hasChange (l :: rest) = hasChange rest := by
        simp [hasChange, List.any_cons, hop, opContext, opAdd, opDelete]
      rw [e2, ← ih hrest]
      simp [hop]
    · have e2 : hasChange (l :: rest) = true := by
        simp [hasChange, List.any_cons, hop]
      rw [e2]
      simp only [List.mem_cons]
      constructor
      · intro h
        have := h l (Or.inl rfl)
        rw [hop] at this
        exact absurd this (by decide)
      · intro h; cases h
    · have e2 : hasChange (l :: rest) = true := by
        simp [hasChange, List.any_cons, hop]
      rw [e2]
      simp only [List.mem_cons]
      constructor
      · intro h
        have := h l (Or.inl rfl)
        rw [hop] at this
        exact absurd this (by decide)
      · intro h; cases h

theorem ctxSuf_cons (l : Line) (rest : List Line) (hval : opsValid rest = true) :
    ctxSuf (l :: rest) =
      if hasChange rest then ctxSuf rest
      else countCtx rest + (if l.op = opContext then 1 else 0) := by
  unfold ctxSuf
  rw [List.reverse_cons, takeWhile_append_len]
  by_cases hch : hasChange rest
  · have hnall : ¬ ∀ x ∈ rest, x.op = opContext := by
      rw [all_ctx_iff rest hval, hch]
      simp
    have hb : (rest.reverse.all fun x => x.op = opContext) = false := by
      rw [← Bool.not_eq_true]
      intro hc
      refine hnall fun x hx => ?_
      have := List.all_eq_true.mp hc x (List.mem_reverse.mpr hx)
      simpa using this
    rw [hb]
    simp [hch]
  · have hall : ∀ x ∈ rest, x.op = opContext := by
      rw [all_ctx_iff rest hval]
      simpa using hch
    have hb : (rest.reverse.all fun x => x.op = opContext) = true := by
      refine List.all_eq_true.mpr fun x hx => ?_
      have := hall x (List.mem_reverse.mp hx)
      simpa using this
    have hcnt : countCtx rest = rest.length := by
      unfold countCtx
      refine List.countP_eq_length.mpr fun a ha => ?_
      simpa using hall a ha
    rw [hb]
    by_cases hl : l.op = opContext <;>
      simp [hch, hl, List.takeWhile_cons, hcnt, List.length_reverse]

theorem validateLoop_ok (ls : List Line) (hval : opsValid ls = true) :
    ∀ (i : Int) (c : ValCounts), 0 ≤ c.addL → 0 ≤ c.delL →
      validateLoop ls i c = .ok (loopSpec c ls) := by
  induction ls with
  | nil =>
    intro i c _ _
    obtain ⟨o, nw, lc, tc, cx, ad, dl⟩ := c
    simp only [validateLoop, loopSpec, countOld, countNew, countCtx, countAdd, countDel,
      ctxPre, ctxSuf, hasChange]
    simp [ValCounts.mk.injEq]
    all_goals split_ifs <;> simp
  | cons l rest ih =>
    intro i c had hdd
    have hv : (l.op = opContext ∨ l.op = opAdd ∨ l.op = opDelete) ∧ opsValid rest = true := by
      simpa [opsValid, List.all_cons, or_assoc] using hval
    rcases hv with ⟨hop, hrest⟩
    have hsuf0 := ctxSuf_cons l rest hrest
    rcases hop with hop | hop | hop
    · have hsuf : ctxSuf (l :: rest) =
          if hasChange rest = true then ctxSuf rest else countCtx rest + 1 := by
        rw [hsuf0, if_pos hop]
      have cOld : countOld (l :: rest) = countOld rest + 1 := by
        simp [countOld, List.countP_cons, hop, opContext, opDelete]
      have cNew : countNew (l :: rest) = countNew rest + 1 := by
        simp [countNew, List.countP_cons, hop, opContext, opAdd]
      have cCtx : countCtx (l :: rest) = countCtx rest + 1 := by
        simp [countCtx, List.countP_cons, hop]
      have cAdd : countAdd (l :: rest) = countAdd rest := by
        simp [countAdd, List.countP_cons, hop, opContext, opAdd]
      have cDel : countDel (l :: rest) = countDel rest := by
        simp [countDel, List.countP_cons, hop, opContext, opDelete]
      have cPre : ctxPre (l :: rest) = ctxPre rest + 1 := by
        simp [ctxPre, List.takeWhile_cons, hop]
      have cCh : hasChange (l :: rest) = hasChange rest := by
        simp [hasChange, List.any_cons, hop, opContext, opAdd, opDelete]
      have hstep : validateLoop (l :: rest) i c = validateLoop rest (i + 1)
          ({ c with
            oldL := c.oldL + 1
            newL := c.newL + 1
            ctxL := c.ctxL + 1
            leadC := if c.addL = 0 ∧ c.delL = 0 then c.leadC + 1 else c.leadC
            trailC := if c.addL = 0 ∧ c.delL = 0 then c.trailC else c.trailC + 1 }) := by
        simp only [validateLoop]
        rw [if_pos hop]
      rw [hstep, ih hrest _ _ (by simpa using had) (by simpa using hdd)]
      refine congrArg Except.ok ?_
      obtain ⟨o, nw, lc, tc, cx, ad, dl⟩ := c
      simp only [loopSpec, ValCounts.mk.injEq]
      refine ⟨by rw [cOld]; push_cast; omega, by rw [cNew]; push_cast; omega,
        ?_, ?_, by rw [cCtx]; push_cast; omega,
        by rw [cAdd], by rw [cDel]⟩
      · by_cases hfr : ad = 0 ∧ dl = 0 <;> simp [hfr, cPre] <;> push_cast <;> omega
      · rw [cCh, hsuf]
        by_cases hfr : ad = 0 ∧ dl = 0 <;> by_cases hch : hasChange rest <;>
          simp [hfr, hch, cCtx] <;> push_cast <;> omega
    · have h1 : ¬ l.op = opContext := by rw [hop]; decide
      have hsuf : ctxSuf (l :: rest) =
          if hasChange rest = true then ctxSuf rest else countCtx rest := by
        rw [hsuf0, if_neg h1, Nat.add_zero]
      have cOld : countOld (l :: rest) = countOld rest := by
        simp [countOld, List.countP_cons, hop, opContext, opDelete, opAdd]
      have cNew : countNew (l :: rest) = countNew rest + 1 := by
        simp [countNew, List.countP_cons, hop, opContext, opAdd]
      have cCtx : countCtx (l :: rest) = countCtx rest := by
        simp [countCtx, List.countP_cons, hop, opContext, opAdd]
      have cAdd : countAdd (l :: rest) = countAdd rest + 1 := by
        simp [countAdd, List.countP_cons, hop, opAdd]
      have cDel : countDel (l :: rest) = countDel rest := by
        simp [countDel, List.countP_cons, hop, opAdd, opDelete]
      have cPre : ctxPre (l :: rest) = 0 := by
        simp [ctxPre, List.takeWhile_cons, h1]
      have cCh : hasChange (l :: rest) = true := by
        simp [hasChange, List.any_cons, hop]
      have hstep : validateLoop (l :: rest) i c = validateLoop rest (i + 1)
          ({ c with newL := c.newL + 1, addL := c.addL + 1, trailC := 0 }) := by
        simp only [validateLoop]
        rw [if_neg h1, if_pos hop]
      rw [hstep, ih hrest _ _ (by simp; omega) (by simpa using hdd)]
      refine congrArg Except.ok ?_
      obtain ⟨o, nw, lc, tc, cx, ad, dl⟩ := c
      simp only [ValCounts.addL] at had
      simp only [loopSpec, ValCounts.mk.injEq]
      have hnfr : ¬ (ad + 1 = 0 ∧ dl = 0) := by
        intro hc
        obtain ⟨hc1, hc2⟩ := hc
        omega
      refine ⟨by rw [cOld], by rw [cNew]; push_cast; omega, ?_, ?_,
        by rw [cCtx], by rw [cAdd]; push_cast; omega, by rw [cDel]⟩
      · by_cases hfr : ad = 0 ∧ dl = 0 <;> simp [hfr, hnfr, cPre]
      · rw [cCh, hsuf]
        by_cases hch : hasChange rest <;> simp [hch, hnfr] <;> push_cast <;> omega
    · have h1 : ¬ l.op = opContext := by rw [hop]; decide
      have h2 : ¬ l.op = opAdd := by rw [hop]; decide
      have hsuf : ctxSuf (l :: rest) =
          if hasChange rest = true then ctxSuf rest else countCtx rest := by
        rw [hsuf0, if_neg h1, Nat.add_zero]
      have cOld : countOld (l :: rest) = countOld rest + 1 := by
        simp [countOld, List.countP_cons, hop, opContext, opDelete]
      have cNew : countNew (l :: rest) = countNew rest := by
        simp [countNew, List.countP_cons, hop, opContext, opAdd, opDelete]
      have cCtx : countCtx (l :: rest) = countCtx rest := by
        simp [countCtx, List.countP_cons, hop, opContext, opDelete]
      have cAdd : countAdd (l :: rest) = countAdd rest := by
        simp [countAdd, List.countP_cons, hop, opAdd, opDelete]
      have cDel : countDel (l :: rest) = countDel rest + 1 := by
        simp [countDel, List.countP_cons, hop, opDelete]
      have cPre : ctxPre (l :: rest) = 0 := by
        simp [ctxPre, List.takeWhile_cons, h1]
      have cCh : hasChange (l :: rest) = true := by
        simp [hasChange, List.any_cons, hop]
      have hstep : validateLoop (l :: rest) i c = validateLoop rest (i + 1)
          ({ c with oldL := c.oldL + 1, delL := c.delL + 1, trailC := 0 }) := by
        simp only [validateLoop]
        rw [if_neg h1, if_neg h2, if_pos hop]
      rw [hstep, ih hrest _ _ (by simpa using had) (by simp; omega)]
      refine congrArg Except.ok ?_
      obtain ⟨o, nw, lc, tc, cx, ad, dl⟩ := c
      simp only [ValCounts.delL] at hdd
      simp only [loopSpec, ValCounts.mk.injEq]
      have hnfr : ¬ (ad = 0 ∧ dl + 1 = 0) := by
        intro hc
        obtain ⟨hc1, hc2⟩ := hc
        omega
      refine ⟨by rw [cOld]; push_cast; omega, by rw [cNew], ?_, ?_,
        by rw [cCtx], by rw [cAdd], by rw [cDel]; push_cast; omega⟩
      · by_cases hfr : ad = 0 ∧ dl = 0 <;> simp [hfr, hnfr, cPre]
      · rw [cCh, hsuf]
        by_cases hch : hasChange rest <;> simp [hch, hnfr] <;> push_cast <;> omega

theorem validateLoop_error (ls : List Line) (hval : opsValid ls = false) :
    ∀ (i : Int) (c : ValCounts), ∃ m, validateLoop ls i c = .error m := by
  induction ls with
  | nil => simp [opsValid] at hval
  | cons l rest ih =>
    intro i c
    by_cases hop : l.op = opContext ∨ l.op = opAdd ∨ l.op = opDelete
    · have hrest : opsValid rest = false := by
        rcases hop with h | h | h <;>
          simpa [opsValid, List.all_cons, h, opContext, opAdd, opDelete] using hval
      rcases hop with h | h | h
      · simp only [validateLoop]
        rw [if_pos h]
        exact ih hrest _ _
      · have h1 : ¬ l.op = opContext := by rw [h]; decide
        simp only [validateLoop]
        rw [if_neg h1, if_pos h]
        exact ih hrest _ _
      · have h1 : ¬ l.op = opContext := by rw [h]; decide
        have h2 : ¬ l.op = opAdd := by rw [h]; decide
        simp only [validateLoop]
        rw [if_neg h1, if_neg h2, if_pos h]
        exact ih hrest _ _
    · push_neg at hop
      obtain ⟨h1, h2, h3⟩ := hop
      refine ⟨"unknown operator on line " ++ toString (i + 1), ?_⟩
      simp only [validateLoop]
      rw [if_neg h1, if_neg h2, if_neg h3]

theorem validate_cond_chain (f : TextFragment) (c : ValCounts) :
    (if c.oldL ≠ f.oldLines then some (lineCountErr "old" c.oldL f.oldLines)
      else if c.newL ≠ f.newLines then some (lineCountErr "new" c.newL f.newLines)
      else if c.leadC ≠ f.leadingContext then
        some (lineCountErr "leading context" c.leadC f.leadingContext)
      else if c.trailC ≠ f.trailingContext then
        some (lineCountErr "trailing context" c.trailC f.trailingContext)
      else if c.addL ≠ f.linesAdded then some (lineCountErr "added" c.addL f.linesAdded)
      else if c.delL ≠ f.linesDeleted then
        some (lineCountErr "deleted" c.delL f.linesDeleted)
      else if f.oldPosition = 0 ∧ f.oldLines ≠ 0 then
        some "file creation fragment contains context or deletion lines"
      else none) = none ↔
      (c.oldL = f.oldLines ∧ c.newL = f.newLines ∧ c.leadC = f.leadingContext ∧
        c.trailC = f.trailingContext ∧ c.addL = f.linesAdded ∧ c.delL = f.linesDeleted ∧
        (f.oldPosition = 0 → f.oldLines = 0)) := by
  split_ifs with h1 h2 h3 h4 h5 h6 h7 <;> simp_all <;> tauto

theorem validate_eq_chain (f : TextFragment) (c : ValCounts)
    (h : validateLoop f.lines 0 {} = .ok c) :
    validate f =
      (if c.oldL ≠ f.oldLines then some (lineCountErr "old" c.oldL f.oldLines)
      else if c.newL ≠ f.newLines then some (lineCountErr "new" c.newL f.newLines)
      else if c.leadC ≠ f.leadingContext then
        some (lineCountErr "leading context" c.leadC f.leadingContext)
      else if c.trailC ≠ f.trailingContext then
        some (lineCountErr "trailing context" c.trailC f.trailingContext)
      else if c.addL ≠ f.linesAdded then some (lineCountErr "added" c.addL f.linesAdded)
      else if c.delL ≠ f.linesDeleted then
        some (lineCountErr "deleted" c.delL f.linesDeleted)
      else if f.oldPosition = 0 ∧ f.oldLines ≠ 0 then
        some "file creation fragment contains context or deletion lines"
      else none) := by
  unfold validate
  rw [h]

/-- Claim C2 (amended): `Validate` accepts a fragment exactly when it is
self-consistent: counted old and new lines match the stored counts, the
added and deleted tallies match, the leading context equals the count
of Context lines before the first non-Context line, the trailing
context equals the count of Context lines after the last non-Context
line when an Add or Delete line exists and is 0 otherwise, every op is
one of Context, Add, Delete, and old position 0 forces zero old
lines. -/
theorem validate_iff_consistent (f : TextFragment) :
    validate f = none ↔ specConsistentAmended f := by
  by_cases hval : opsValid f.lines = true
  · have hok := validateLoop_ok f.lines hval 0 {} (by norm_num) (by norm_num)
    rw [validate_eq_chain f _ hok, validate_cond_chain]
    simp only [loopSpec, specConsistentAmended]
    constructor
    · intro h
      obtain ⟨e1, e2, e3, e4, e5, e6, e7⟩ := h
      refine ⟨?_, ?_, ?_, ?_, ?_, ?_, hval, e7⟩ <;> simp_all <;> omega
    · intro hc
      obtain ⟨e1, e2, e3, e4, e5, e6, _, e8⟩ := hc
      refine ⟨?_, ?_, ?_, ?_, ?_, ?_, e8⟩ <;> simp_all <;> omega
  · have hval2 : opsValid f.lines = false := by simpa using hval
    obtain ⟨m, hm⟩ := validateLoop_error f.lines hval2 0 {}
    constructor
    · intro h
      unfold validate at h
      rw [hm] at h
      cases h
    · intro hc
      exact absurd hc.2.2.2.2.2.2.1 hval

/-- Claim C2 counterexample: the claim as stated fails on a valid fragment
of a single context line: `Validate` accepts it (the code counts the
line as leading context and stores trailing context 0), while the
claimed consistency predicate demands trailing context 1, the number of
Context lines after the (non-existent) last non-Context line. -/
theorem validate_trailing_counterexample :
    validate fragAllCtx = none ∧ ¬ specConsistent fragAllCtx := by
  constructor
  · rfl
  · decide

theorem effLen_le_length (src : List String) : effLen src ≤ src.length := by
  cases h : src.getLast? with
  | none => simp [effLen, h]
  | some l =>
    simp only [effLen, h]
    split_ifs <;> omega

theorem length_le_effLen_succ (src : List String) : src.length ≤ effLen src + 1 := by
  cases h : src.getLast? with
  | none =>
    have hnil : src = [] := List.getLast?_eq_none_iff.mp h
    subst hnil
    simp [effLen]
  | some l =>
    have hne : src ≠ [] := by
      intro hc
      subst hc
      simp at h
    have hlen : 1 ≤ src.length := by
      cases src with
      | nil => exact absurd rfl hne
      | cons a b => simp
    simp only [effLen, h]
    split_ifs <;> omega

theorem srcLineAt_ge_length (src : List String) (m : Nat) (h : src.length ≤ m) :
    srcLineAt src m = "" := by
  unfold srcLineAt
  exact List.getD_eq_default src "" h

theorem srcLineAt_lt_length (src : List String) (m : Nat) (h : m < src.length) :
    srcLineAt src m = src.get ⟨m, h⟩ := by
  unfold srcLineAt
  rw [List.getD_eq_getElem src "" h]
  simp

theorem endsWithNL_empty : endsWithNL "" = false := by
  rfl

theorem wf_mid_nl (src : List String) (hwf : wfSource src = true) :
    ∀ m, m + 1 < src.length → endsWithNL (srcLineAt src m) = true := by
  induction src with
  | nil => intro m hm; simp at hm
  | cons l rest ih =>
    intro m hm
    cases m with
    | zero =>
      have hr : rest ≠ [] := by
        intro hc
        subst hc
        simp at hm
      have : endsWithNL l = true := by
        cases rest with
        | nil => exact absurd rfl hr
        | cons b bs =>
          simp [wfSource] at hwf
          tauto
      simpa [srcLineAt] using this
    | succ k =>
      have hk : k + 1 < rest.length := by
        simpa using hm
      have := ih (wf_tail l rest hwf) k hk
      simpa [srcLineAt] using this

theorem getLast?_eq_srcLineAt (src : List String) (h : src ≠ []) :
    src.getLast? = some (srcLineAt src (src.length - 1)) := by
  have hlen : 0 < src.length := List.length_pos.mpr h
  rw [List.getLast?_eq_getElem?]
  rw [List.getElem?_eq_getElem (by omega)]
  rw [srcLineAt_lt_length src (src.length - 1) (by omega)]
  simp

theorem wf_last_nl_iff (src : List String) (h : src ≠ []) :
    (endsWithNL (srcLineAt src (src.length - 1)) = true) ↔ effLen src = src.length := by
  have hlen : 0 < src.length := List.length_pos.mpr h
  unfold effLen
  rw [getLast?_eq_srcLineAt src h]
  constructor
  · intro hnl
    simp [hnl]
  · intro he
    by_cases hnl : endsWithNL (srcLineAt src (src.length - 1)) = true
    · exact hnl
    · simp [hnl] at he
      omega

theorem srcLineAt_nl_iff (src : List String) (hwf : wfSource src = true) (m : Nat) :
    endsWithNL (srcLineAt src m) = true ↔ m < effLen src := by
  by_cases hm : m < src.length
  · have hne : src ≠ [] := by
      intro hc
      subst hc
      simp at hm
    by_cases hmid : m + 1 < src.length
    · have h1 := wf_mid_nl src hwf m hmid
      have h2 : m < effLen src := by
        have := length_le_effLen_succ src
        omega
      simp [h1, h2]
    · have hlast : m = src.length - 1 := by omega
      subst hlast
      rw [wf_last_nl_iff src hne]
      have h1 := effLen_le_length src
      have h2 := length_le_effLen_succ src
      constructor <;> intro h3 <;> omega
  · have h1 : srcLineAt src m = "" := srcLineAt_ge_length src m (by omega)
    have h2 := effLen_le_length src
    rw [h1, endsWithNL_empty]
    constructor
    · intro hc; cases hc
    · intro hc; omega

theorem srcLineAt_gt_eff (src : List String) (hwf : wfSource src = true) (m : Nat)
    (h : effLen src < m) : srcLineAt src m = "" := by
  have h1 := length_le_effLen_succ src
  exact srcLineAt_ge_length src m (by omega)

theorem readLine_rdAt (src : List String) (hwf : wfSource src = true) (m : Nat) :
    readLine (rdAt src m) =
      (srcLineAt src m, ((min m (effLen src) : Nat) : Int), decide (effLen src ≤ m),
        rdAt src (m + 1)) := by
  have hE := effLen_le_length src
  have hL := length_le_effLen_succ src
  by_cases hm : m < src.length
  · have hget : src[m] = srcLineAt src m := by
      rw [srcLineAt_lt_length src m hm]
      simp
    simp only [rdAt]
    rw [List.drop_eq_getElem_cons hm, hget]
    by_cases hnl : endsWithNL (srcLineAt src m) = true
    · have hlt : m < effLen src := (srcLineAt_nl_iff src hwf m).mp hnl
      have heof : decide (effLen src ≤ m) = false := by
        simp only [decide_eq_false_iff_not]
        omega
      simp only [readLine, hnl, if_true, heof]
      simp only [Prod.mk.injEq, Reader.mk.injEq, true_and, and_true]
      push_cast
      omega
    · have hge : effLen src ≤ m := by
        by_contra hc
        exact hnl ((srcLineAt_nl_iff src hwf m).mpr (by omega))
      have hnl2 : endsWithNL (srcLineAt src m) = false := by
        simpa using hnl
      have heof : decide (effLen src ≤ m) = true := by
        simp only [decide_eq_true_eq]
        omega
      simp only [readLine, hnl2, Bool.false_eq_true, if_false, heof]
      simp only [Prod.mk.injEq, Reader.mk.injEq, true_and, and_true]
      push_cast
      omega
  · have hdrop : src.drop m = [] := List.drop_eq_nil_of_le (by omega)
    have hdrop2 : src.drop (m + 1) = [] := List.drop_eq_nil_of_le (by omega)
    have hline : srcLineAt src m = "" := srcLineAt_ge_length src m (by omega)
    have heof : decide (effLen src ≤ m) = true := by
      simp only [decide_eq_true_eq]
      omega
    simp only [rdAt]
    rw [hdrop, hdrop2, hline, heof]
    simp only [readLine]
    simp only [Prod.mk.injEq, Reader.mk.injEq, true_and, and_true]
    push_cast
    omega

theorem rdAt_ge_length (src : List String) (m : Nat) (h : src.length ≤ m) :
    rdAt src m = ⟨[], ((effLen src : Nat) : Int)⟩ := by
  have h1 := effLen_le_length src
  unfold rdAt
  rw [List.drop_eq_nil_of_le h]
  simp only [Reader.mk.injEq, true_and]
  push_cast
  omega

theorem noeol_false_iff (l : Line) : l.NoEOL = false ↔ endsWithNL l.line = true := by
  unfold Line.NoEOL
  constructor
  · intro h
    simp at h
    exact h.2
  · intro h
    have hne : l.line.length ≠ 0 := by
      intro hc
      have : l.line = "" := by
        cases hl : l.line with
        | mk data =>
          rw [hl] at hc
          simp [String.length] at hc
          simp [hc]
      rw [this] at h
      cases h
    simp [hne, h]

theorem line_old_iff (l : Line) :
    l.Old = true ↔ (l.op = opContext ∨ l.op = opDelete) := by
  unfold Line.Old
  simp

theorem stringJoin_foldl (x y : String) (l : List String) :
    List.foldl (· ++ ·) (x ++ y) l = x ++ List.foldl (· ++ ·) y l := by
  induction l generalizing y with
  | nil => simp
  | cons b bs ih =>
    simp only [List.foldl_cons]
    rw [String.append_assoc, ih]

theorem stringJoin_cons (a : String) (l : List String) :
    String.join (a :: l) = a ++ String.join l := by
  show List.foldl (· ++ ·) ("" ++ a) l = a ++ List.foldl (· ++ ·) "" l
  rw [show ("" ++ a) = (a ++ "") by simp]
  exact stringJoin_foldl a "" l

theorem copyLinesGo_spec (src : List String) (hwf : wfSource src = true)
    (lim : Nat) (hlim : lim ≤ effLen src) :
    ∀ k m, m + k = lim →
      copyLinesGo (lim : Int) (src.drop m) (m : Int) =
        ⟨String.join ((src.drop m).take k), srcLineAt src lim, (lim : Int),
          if effLen src ≤ lim then some .eofE else none, rdAt src (lim + 1)⟩ := by
  have hE := effLen_le_length src
  have hL := length_le_effLen_succ src
  intro k
  induction k with
  | zero =>
    intro m hm
    have hmeq : m = lim := by omega
    subst hmeq
    by_cases hmL : m < src.length
    · have hget : src[m] = srcLineAt src m := by
        rw [srcLineAt_lt_length src m hmL]
        simp
      rw [List.drop_eq_getElem_cons hmL, hget]
      by_cases hnl : endsWithNL (srcLineAt src m) = true
      · have hlt : m < effLen src := (srcLineAt_nl_iff src hwf m).mp hnl
        have hne : ¬ effLen src ≤ m := by omega
        simp only [copyLinesGo, hnl, if_true, if_pos rfl]
        simp [CopyRes.mk.injEq, Reader.mk.injEq, rdAt, hne, String.join] <;>
          (push_cast; omega)
      · have hge : effLen src ≤ m := by
          by_contra hc
          exact hnl ((srcLineAt_nl_iff src hwf m).mpr (by omega))
        have hnl2 : endsWithNL (srcLineAt src m) = false := by simpa using hnl
        have hdrop2 : src.drop (m + 1) = [] := List.drop_eq_nil_of_le (by omega)
        simp only [copyLinesGo, hnl2, Bool.false_eq_true, if_false, copyLinesEOF]
        have hm0 : ¬ ((m : Int) < 0) := by omega
        simp [CopyRes.mk.injEq, Reader.mk.injEq, rdAt, hge, hdrop2, String.join, hm0] <;>
          (push_cast; omega)
    · have hdrop : src.drop m = [] := List.drop_eq_nil_of_le (by omega)
      have hdrop2 : src.drop (m + 1) = [] := List.drop_eq_nil_of_le (by omega)
      have hline : srcLineAt src m = "" := srcLineAt_ge_length src m (by omega)
      have hgem : effLen src ≤ m := by omega
      rw [hdrop]
      simp only [copyLinesGo, copyLinesEOF]
      have hm0 : ¬ ((m : Int) < 0) := by omega
      simp [CopyRes.mk.injEq, Reader.mk.injEq, rdAt, hgem, hdrop2, hline, String.join, hm0] <;>
        (push_cast; omega)
  | succ k ih =>
    intro m hm
    have hmE : m < effLen src := by omega
    have hmL : m < src.length := by omega
    have hget : src[m] = srcLineAt src m := by
      rw [srcLineAt_lt_length src m hmL]
      simp
    have hnl : endsWithNL src[m] = true := by
      rw [hget]
      exact (srcLineAt_nl_iff src hwf m).mpr (by omega)
    rw [List.drop_eq_getElem_cons hmL]
    simp only [copyLinesGo, hnl, if_true]
    have c1 : ¬ ((m : Int) = (lim : Int)) := by
      push_cast
      omega
    have c2 : ¬ ((m : Int) > (lim : Int)) := by
      push_cast
      omega
    rw [if_neg c1, if_neg c2]
    have hc : ((m : Int) + 1) = (((m + 1 : Nat) : Nat) : Int) := by push_cast; ring
    rw [hc, ih (m + 1) (by omega)]
    rw [List.take_succ_cons, stringJoin_cons]

theorem copyLines_spec (src : List String) (hwf : wfSource src = true)
    (lim : Nat) (hlim : lim ≤ effLen src) :
    copyLines (mkReader src) (lim : Int) =
      ⟨String.join (src.take lim), srcLineAt src lim, (lim : Int),
        if effLen src ≤ lim then some .eofE else none, rdAt src (lim + 1)⟩ := by
  have h := copyLinesGo_spec src hwf lim hlim lim 0 (by omega)
  simp only [List.drop_zero] at h
  simpa [copyLines, mkReader] using h

theorem noeol_ne_src (src : List String) (hwf : wfSource src = true) (m : Nat)
    (l : Line) (hm : effLen src ≤ m) (h : l.NoEOL = false) :
    ¬ (l.line = srcLineAt src m) := by
  intro hc
  have h1 := (noeol_false_iff l).mp h
  rw [hc] at h1
  have h2 := (srcLineAt_nl_iff src hwf m).mp h1
  omega

theorem applyError_conflict_two (msg : String) (n m : Int) :
    applyError (some (.conflict msg)) [.lineNum n, .fragLineNum m] =
      some (.applyE (n + 1) 0 (m + 1) (.conflict msg)) := by
  simp [applyError, applyErrorFold, wrapEOF]

theorem applyError_eof_two (n m : Int) :
    applyError (some .eofE) [.lineNum n, .fragLineNum m] =
      some (.applyE (n + 1) 0 (m + 1) .unexpectedEOF) := by
  simp [applyError, applyErrorFold, wrapEOF]

theorem oldTexts_cons_old (l : Line) (rest : List Line) (h : l.Old = true) :
    oldTexts (l :: rest) = l.line :: oldTexts rest := by
  simp [oldTexts, h]

theorem oldTexts_cons_new (l : Line) (rest : List Line) (h : l.Old = false) :
    oldTexts (l :: rest) = oldTexts rest := by
  simp [oldTexts, h]

theorem oldsMatch_iff_indexed (src : List String) (limit : Nat) :
    ∀ (ls : List Line) (u : Nat),
      oldsMatch src limit ls u ↔
        ∀ j (hj : j < (oldTexts ls).length),
          (oldTexts ls).get ⟨j, hj⟩ = srcLineAt src (limit + u + j) := by
  intro ls
  induction ls with
  | nil =>
    intro u
    simp [oldsMatch, oldTexts]
  | cons l rest ih =>
    intro u
    cases hOld : l.Old with
    | false =>
      rw [oldTexts_cons_new l rest hOld]
      simp only [oldsMatch]
      rw [if_neg (by simp [hOld])]
      exact ih u
    | true =>
      rw [oldTexts_cons_old l rest hOld]
      simp only [oldsMatch]
      rw [if_pos hOld]
      constructor
      · rintro ⟨h1, h2⟩ j hj
        cases j with
        | zero => simpa using h1
        | succ j2 =>
          have h3 := (ih (u + 1)).mp h2 j2 (by simpa using hj)
          have h4 : limit + (u + 1) + j2 = limit + u + (j2 + 1) := by omega
          rw [h4] at h3
          simpa using h3
      · intro h
        refine ⟨by simpa using h 0 (by simp), (ih (u + 1)).mpr ?_⟩
        intro j hj
        have h5 := h (j + 1) (by simpa using Nat.succ_lt_succ hj)
        have h4 : limit + u + (j + 1) = limit + (u + 1) + j := by omega
        rw [h4] at h5
        simpa using h5

theorem nlOf_true (src : List String) (limit u : Nat) :
    nlOf src limit u true = srcLineAt src (limit + u) := rfl

theorem nlOf_false (src : List String) (limit u : Nat) :
    nlOf src limit u false = srcLineAt src (limit + u - 1) := rfl

theorem nnOf_true (src : List String) (limit u : Nat) :
    nnOf src limit u true = ((min (limit + u) (effLen src) : Nat) : Int) := by
  unfold nnOf
  simp [Nat.cast_min]

theorem nnOf_false (src : List String) (limit u : Nat) (hu : 1 ≤ u) :
    nnOf src limit u false = ((min (limit + u - 1) (effLen src) : Nat) : Int) := by
  unfold nnOf
  simp [Nat.cast_min]
  omega

theorem rdOf_true (src : List String) (limit u : Nat) :
    rdOf src limit u true = rdAt src (limit + u + 1) := rfl

theorem rdOf_false (src : List String) (limit u : Nat) :
    rdOf src limit u false = rdAt src (limit + u) := rfl

theorem applyLines_step_conflict (l : Line) (rest : List Line) (i : Int) (s : String)
    (n used limit : Int) (r : Reader) (acc : String)
    (h : (applyTextLine s l).1 = some "fragment line does not match src line") :
    applyLines (l :: rest) i s n used limit r acc =
      ⟨acc, applyError (some (.conflict "fragment line does not match src line"))
        [.lineNum n, .fragLineNum i], r⟩ := by
  simp only [applyLines, h]

theorem applyLines_step_nil (l : Line) (i : Int) (s : String) (n used limit : Int)
    (r : Reader) (acc w : String) (h : applyTextLine s l = (none, w)) :
    applyLines [l] i s n used limit r acc = ⟨acc ++ w, none, r⟩ := by
  simp only [applyLines, h]

theorem applyLines_step_stale (l l2 : Line) (rest2 : List Line) (i : Int) (s : String)
    (n used limit : Int) (r : Reader) (acc w : String)
    (h : applyTextLine s l = (none, w))
    (hc : ¬ (l2.Old = true ∧ n - limit < (if l.Old = true then used + 1 else used))) :
    applyLines (l :: l2 :: rest2) i s n used limit r acc =
      applyLines (l2 :: rest2) (i + 1) s n (if l.Old = true then used + 1 else used)
        limit r (acc ++ w) := by
  simp only [applyLines, h]
  rw [if_neg hc]

theorem applyLines_step_read_cont (l l2 : Line) (rest2 : List Line) (i : Int) (s : String)
    (n used limit : Int) (r : Reader) (acc w : String)
    (h : applyTextLine s l = (none, w))
    (hc : l2.Old = true ∧ n - limit < (if l.Old = true then used + 1 else used))
    (hok : (readLine r).2.2.1 = false ∨ l2.NoEOL = true) :
    applyLines (l :: l2 :: rest2) i s n used limit r acc =
      applyLines (l2 :: rest2) (i + 1) (readLine r).1 (readLine r).2.1
        (if l.Old = true then used + 1 else used) limit (readLine r).2.2.2 (acc ++ w) := by
  simp only [applyLines, h]
  rw [if_pos hc]
  rcases hok with h1 | h1
  · rw [if_neg (fun hcc => by simp [h1] at hcc), if_neg (by simp [h1])]
  · cases hflag : (readLine r).2.2.1 with
    | true => rw [if_pos ⟨rfl, h1⟩]
    | false => rw [if_neg (fun hcc => by simp [hflag] at hcc), if_neg (by simp [hflag])]

theorem applyLines_step_read_eof (l l2 : Line) (rest2 : List Line) (i : Int) (s : String)
    (n used limit : Int) (r : Reader) (acc w : String)
    (h : applyTextLine s l = (none, w))
    (hc : l2.Old = true ∧ n - limit < (if l.Old = true then used + 1 else used))
    (hf : (readLine r).2.2.1 = true) (hno : l2.NoEOL = false) :
    applyLines (l :: l2 :: rest2) i s n used limit r acc =
      ⟨acc ++ w, applyError (some .eofE) [.lineNum (readLine r).2.1, .fragLineNum (i + 1)],
        (readLine r).2.2.2⟩ := by
  simp only [applyLines, h]
  rw [if_pos hc]
  rw [if_neg (fun hcc => by simp [hno] at hcc)]
  rw [if_pos hf]

theorem applyLines_spec (src : List String) (hwf : wfSource src = true)
    (limit : Nat) (hlimit : limit ≤ effLen src) :
    ∀ (ls : List Line) (i : Int) (acc : String) (u : Nat) (fr : Bool),
      (fr = false → 1 ≤ u) →
      (∀ l rest2, ls = l :: rest2 → l.Old = true → fr = true) →
      ((applyLines ls i (nlOf src limit u fr) (nnOf src limit u fr) ((u : Nat) : Int)
          ((limit : Nat) : Int) (rdOf src limit u fr) acc).err = none ↔
        oldsMatch src limit ls u) ∧
      (∀ e, (applyLines ls i (nlOf src limit u fr) (nnOf src limit u fr) ((u : Nat) : Int)
          ((limit : Nat) : Int) (rdOf src limit u fr) acc).err = some e →
        applyFailureOk e) := by
  have hE := effLen_le_length src
  have hL2 := length_le_effLen_succ src
  intro ls
  induction ls with
  | nil =>
    intro i acc u fr hinv1 hinv2
    constructor
    · simp [applyLines, oldsMatch]
    · intro e he
      simp [applyLines] at he
  | cons l rest ih =>
    intro i acc u fr hinv1 hinv2
    cases hOld : l.Old with
    | true =>
      have hfr := hinv2 l rest rfl hOld
      subst hfr
      have hops := (line_old_iff l).mp hOld
      by_cases hmatch : srcLineAt src (limit + u) = l.line
      case neg =>
        have hat1 : (applyTextLine (nlOf src limit u true) l).1 =
            some "fragment line does not match src line" := by
          rw [nlOf_true]
          unfold applyTextLine
          rw [if_pos ⟨hops, hmatch⟩]
        rw [applyLines_step_conflict l rest i _ _ _ _ _ _ hat1]
        rw [applyError_conflict_two]
        constructor
        · constructor
          · intro hc
            exact absurd hc (by simp)
          · intro hom
            exfalso
            simp only [oldsMatch] at hom
            rw [if_pos hOld] at hom
            exact hmatch hom.1.symm
        · intro e he
          exact ⟨_, _, _, Or.inl (Option.some.inj he).symm⟩
      case pos =>
        have hat : applyTextLine (nlOf src limit u true) l =
            (none, if l.op = opContext ∨ l.op = opAdd then l.line else "") := by
          rw [nlOf_true]
          unfold applyTextLine
          rw [if_neg (fun hc => hc.2 hmatch)]
        cases rest with
        | nil =>
          rw [applyLines_step_nil l i _ _ _ _ _ _ _ hat]
          constructor
          · constructor
            · intro _
              simp only [oldsMatch]
              rw [if_pos hOld]
              exact ⟨hmatch.symm, trivial⟩
            · intro _
              rfl
          · intro e he
            exact absurd he (by simp)
        | cons l2 rest2 =>
          have hom : oldsMatch src limit (l :: l2 :: rest2) u ↔
              oldsMatch src limit (l2 :: rest2) (u + 1) := by
            simp only [oldsMatch]
            rw [if_pos hOld]
            have h1 : l.line = srcLineAt src (limit + u) := hmatch.symm
            simp [h1]
          rw [hom]
          cases hOld2 : l2.Old with
          | false =>
            rw [applyLines_step_stale l l2 rest2 i _ _ _ _ _ _ _ hat (by
              intro hcnd
              exact absurd hcnd.1 (by simp [hOld2]))]
            rw [if_pos hOld]
            rw [show nlOf src limit u true = nlOf src limit (u + 1) false from by
                  rw [nlOf_true, nlOf_false, show limit + (u + 1) - 1 = limit + u from by omega],
                show nnOf src limit u true = nnOf src limit (u + 1) false from by
                  rw [nnOf_true, nnOf_false src limit (u + 1) (by omega),
                    show limit + (u + 1) - 1 = limit + u from by omega],
                show rdOf src limit u true = rdOf src limit (u + 1) false from by
                  rw [rdOf_true, rdOf_false, show limit + (u + 1) = limit + u + 1 from by omega],
                show ((u : Nat) : Int) + 1 = ((u + 1 : Nat) : Int) from by push_cast; ring]
            exact ih (i + 1) _ (u + 1) false (fun _ => by omega)
              (fun l' r2' he ho => by
                injection he with he1 he2
                subst he1
                exact absurd ho (by simp [hOld2]))
          | true =>
            have hcnd : l2.Old = true ∧
                nnOf src limit u true - ((limit : Nat) : Int) <
                  (if l.Old = true then ((u : Nat) : Int) + 1 else ((u : Nat) : Int)) := by
              refine ⟨hOld2, ?_⟩
              rw [if_pos hOld, nnOf_true]
              push_cast
              omega
            have hread := readLine_rdAt src hwf (limit + u + 1)
            by_cases heof : effLen src ≤ limit + u + 1
            · by_cases hnoeol : l2.NoEOL = true
              · rw [applyLines_step_read_cont l l2 rest2 i _ _ _ _ _ _ _ hat hcnd
                    (Or.inr hnoeol)]
                rw [rdOf_true, hread]
                dsimp only
                rw [if_pos hOld]
                rw [show srcLineAt src (limit + u + 1) = nlOf src limit (u + 1) true from by
                      rw [nlOf_true, show limit + (u + 1) = limit + u + 1 from by omega],
                    show ((min (limit + u + 1) (effLen src) : Nat) : Int) =
                        nnOf src limit (u + 1) true from by
                      rw [nnOf_true, show limit + (u + 1) = limit + u + 1 from by omega],
                    show rdAt src (limit + u + 2) = rdOf src limit (u + 1) true from by
                      rw [rdOf_true, show limit + (u + 1) + 1 = limit + u + 2 from by omega],
                    show ((u : Nat) : Int) + 1 = ((u + 1 : Nat) : Int) from by push_cast; ring]
                exact ih (i + 1) _ (u + 1) true (fun hc => absurd hc (by simp))
                  (fun _ _ _ _ => rfl)
              · have hno : l2.NoEOL = false := by simpa using hnoeol
                rw [applyLines_step_read_eof l l2 rest2 i _ _ _ _ _ _ _ hat hcnd
                    (by rw [rdOf_true, hread]; exact decide_eq_true heof) hno]
                rw [rdOf_true, hread]
                dsimp only
                rw [applyError_eof_two]
                constructor
                · constructor
                  · intro hc
                    exact absurd hc (by simp)
                  · intro hom2
                    exfalso
                    simp only [oldsMatch] at hom2
                    rw [if_pos hOld2] at hom2
                    exact noeol_ne_src src hwf (limit + (u + 1)) l2 (by omega) hno hom2.1
                · intro e he
                  exact ⟨_, _, _, Or.inr (Option.some.inj he).symm⟩
            · rw [applyLines_step_read_cont l l2 rest2 i _ _ _ _ _ _ _ hat hcnd
                  (Or.inl (by rw [rdOf_true, hread]; exact decide_eq_false heof))]
              rw [rdOf_true, hread]
              dsimp only
              rw [if_pos hOld]
              rw [show srcLineAt src (limit + u + 1) = nlOf src limit (u + 1) true from by
                    rw [nlOf_true, show limit + (u + 1) = limit + u + 1 from by omega],
                  show ((min (limit + u + 1) (effLen src) : Nat) : Int) =
                      nnOf src limit (u + 1) true from by
                    rw [nnOf_true, show limit + (u + 1) = limit + u + 1 from by omega],
                  show rdAt src (limit + u + 2) = rdOf src limit (u + 1) true from by
                    rw [rdOf_true, show limit + (u + 1) + 1 = limit + u + 2 from by omega],
                  show ((u : Nat) : Int) + 1 = ((u + 1 : Nat) : Int) from by push_cast; ring]
              exact ih (i + 1) _ (u + 1) true (fun hc => absurd hc (by simp))
                (fun _ _ _ _ => rfl)
    | false =>
      have hops : ¬ (l.op = opContext ∨ l.op = opDelete) := by
        intro hc
        have h1 := (line_old_iff l).mpr hc
        rw [hOld] at h1
        exact absurd h1 (by simp)
      have hat : applyTextLine (nlOf src limit u fr) l =
          (none, if l.op = opContext ∨ l.op = opAdd then l.line else "") := by
        unfold applyTextLine
        rw [if_neg (fun hc => hops hc.1)]
      cases rest with
      | nil =>
        rw [applyLines_step_nil l i _ _ _ _ _ _ _ hat]
        constructor
        · constructor
          · intro _
            simp only [oldsMatch]
            rw [if_neg (by simp [hOld])]
            trivial
          · intro _
            rfl
        · intro e he
          exact absurd he (by simp)
      | cons l2 rest2 =>
        have hom : oldsMatch src limit (l :: l2 :: rest2) u ↔
            oldsMatch src limit (l2 :: rest2) u := by
          simp only [oldsMatch]
          rw [if_neg (by simp [hOld])]
        rw [hom]
        cases fr with
        | true =>
          by_cases hcap : effLen src < limit + u
          · cases hOld2 : l2.Old with
            | false =>
              rw [applyLines_step_stale l l2 rest2 i _ _ _ _ _ _ _ hat (by
                intro hcnd
                exact absurd hcnd.1 (by simp [hOld2]))]
              rw [if_neg (by simp [hOld])]
              exact ih (i + 1) _ u true (fun hc => absurd hc (by simp))
                (fun _ _ _ _ => rfl)
            | true =>
              have hcnd : l2.Old = true ∧
                  nnOf src limit u true - ((limit : Nat) : Int) <
                    (if l.Old = true then ((u : Nat) : Int) + 1 else ((u : Nat) : Int)) := by
                refine ⟨hOld2, ?_⟩
                rw [if_neg (by simp [hOld]), nnOf_true]
                push_cast
                omega
              have hread := readLine_rdAt src hwf (limit + u + 1)
              have heof : effLen src ≤ limit + u + 1 := by omega
              by_cases hnoeol : l2.NoEOL = true
              · rw [applyLines_step_read_cont l l2 rest2 i _ _ _ _ _ _ _ hat hcnd
                    (Or.inr hnoeol)]
                rw [rdOf_true, hread]
                dsimp only
                rw [if_neg (by simp [hOld])]
                rw [show srcLineAt src (limit + u + 1) = nlOf src limit u true from by
                      rw [nlOf_true, srcLineAt_gt_eff src hwf (limit + u + 1) (by omega),
                        srcLineAt_gt_eff src hwf (limit + u) (by omega)],
                    show ((min (limit + u + 1) (effLen src) : Nat) : Int) =
                        nnOf src limit u true from by
                      rw [nnOf_true,
                        show min (limit + u + 1) (effLen src) = min (limit + u) (effLen src)
                          from by omega],
                    show rdAt src (limit + u + 2) = rdOf src limit u true from by
                      rw [rdOf_true, rdAt_ge_length src (limit + u + 2) (by omega),
                        rdAt_ge_length src (limit + u + 1) (by omega)]]
                exact ih (i + 1) _ u true (fun hc => absurd hc (by simp))
                  (fun _ _ _ _ => rfl)
              · have hno : l2.NoEOL = false := by simpa using hnoeol
                rw [applyLines_step_read_eof l l2 rest2 i _ _ _ _ _ _ _ hat hcnd
                    (by rw [rdOf_true, hread]; exact decide_eq_true heof) hno]
                rw [rdOf_true, hread]
                dsimp only
                rw [applyError_eof_two]
                constructor
                · constructor
                  · intro hc
                    exact absurd hc (by simp)
                  · intro hom2
                    exfalso
                    simp only [oldsMatch] at hom2
                    rw [if_pos hOld2] at hom2
                    exact noeol_ne_src src hwf (limit + u) l2 (by omega) hno hom2.1
                · intro e he
                  exact ⟨_, _, _, Or.inr (Option.some.inj he).symm⟩
          · rw [applyLines_step_stale l l2 rest2 i _ _ _ _ _ _ _ hat (by
              intro hcnd
              have h2 := hcnd.2
              rw [if_neg (by simp [hOld]), nnOf_true] at h2
              push_cast at h2
              omega)]
            rw [if_neg (by simp [hOld])]
            exact ih (i + 1) _ u true (fun hc => absurd hc (by simp))
              (fun _ _ _ _ => rfl)
        | false =>
          have hu1 : 1 ≤ u := hinv1 rfl
          cases hOld2 : l2.Old with
          | false =>
            rw [applyLines_step_stale l l2 rest2 i _ _ _ _ _ _ _ hat (by
              intro hcnd
              exact absurd hcnd.1 (by simp [hOld2]))]
            rw [if_neg (by simp [hOld])]
            exact ih (i + 1) _ u false hinv1
              (fun l' r2' he ho => by
                injection he with he1 he2
                subst he1
                exact absurd ho (by simp [hOld2]))
          | true =>
            have hcnd : l2.Old = true ∧
                nnOf src limit u false - ((limit : Nat) : Int) <
                  (if l.Old = true then ((u : Nat) : Int) + 1 else ((u : Nat) : Int)) := by
              refine ⟨hOld2, ?_⟩
              rw [if_neg (by simp [hOld]), nnOf_false src limit u hu1]
              push_cast
              omega
            have hread := readLine_rdAt src hwf (limit + u)
            by_cases heof : effLen src ≤ limit + u
            · by_cases hnoeol : l2.NoEOL = true
              · rw [applyLines_step_read_cont l l2 rest2 i _ _ _ _ _ _ _ hat hcnd
                    (Or.inr hnoeol)]
                rw [rdOf_false, hread]
                dsimp only
                rw [if_neg (by simp [hOld])]
                rw [show srcLineAt src (limit + u) = nlOf src limit u true from
                      (nlOf_true src limit u).symm,
                    show ((min (limit + u) (effLen src) : Nat) : Int) =
                        nnOf src limit u true from (nnOf_true src limit u).symm,
                    show rdAt src (limit + u + 1) = rdOf src limit u true from
                      (rdOf_true src limit u).symm]
                exact ih (i + 1) _ u true (fun hc => absurd hc (by simp))
                  (fun _ _ _ _ => rfl)
              · have hno : l2.NoEOL = false := by simpa using hnoeol
                rw [applyLines_step_read_eof l l2 rest2 i _ _ _ _ _ _ _ hat hcnd
                    (by rw [rdOf_false, hread]; exact decide_eq_true heof) hno]
                rw [rdOf_false, hread]
                dsimp only
                rw [applyError_eof_two]
                constructor
                · constructor
                  · intro hc
                    exact absurd hc (by simp)
                  · intro hom2
                    exfalso
                    simp only [oldsMatch] at hom2
                    rw [if_pos hOld2] at hom2
                    exact noeol_ne_src src hwf (limit + u) l2 heof hno hom2.1
                · intro e he
                  exact ⟨_, _, _, Or.inr (Option.some.inj he).symm⟩
            · rw [applyLines_step_read_cont l l2 rest2 i _ _ _ _ _ _ _ hat hcnd
                  (Or.inl (by rw [rdOf_false, hread]; exact decide_eq_false heof))]
              rw [rdOf_false, hread]
              dsimp only
              rw [if_neg (by simp [hOld])]
              rw [show srcLineAt src (limit + u) = nlOf src limit u true from
                    (nlOf_true src limit u).symm,
                  show ((min (limit + u) (effLen src) : Nat) : Int) =
                      nnOf src limit u true from (nnOf_true src limit u).symm,
                  show rdAt src (limit + u + 1) = rdOf src limit u true from
                    (rdOf_true src limit u).symm]
              exact ih (i + 1) _ u true (fun hc => absurd hc (by simp))
                (fun _ _ _ _ => rfl)

/-- C1: (as amended) For every TextFragment that passes Validate with
OldPosition at least 1 and every well-formed line source read from its
start whose number of newline-terminated lines is at least
OldPosition - 1, TextFragment.ApplyStrict succeeds if and only if the
j-th fragment line with op Context or Delete is byte-for-byte equal to
the source line at zero-indexed position (OldPosition - 1) + j; on
failure the error is an ApplyError wrapping either the Conflict
"fragment line does not match src line" or an unexpected EOF. (The
original claim is refuted by `applyStrict_iff_counterexample`: a
validated file-creation fragment with no Context/Delete lines still
fails on a non-empty source, with a different conflict.) -/
theorem applyStrict_success_iff (f : TextFragment) (src : List String)
    (hv : validate f = none) (hwf : wfSource src = true)
    (hpos : 1 ≤ f.oldPosition)
    (hlim : f.oldPosition - 1 ≤ ((effLen src : Nat) : Int)) :
    ((f.applyStrict (mkReader src)).err = none ↔
      ∀ j (hj : j < (oldTexts f.lines).length),
        (oldTexts f.lines).get ⟨j, hj⟩ =
          srcLineAt src ((f.oldPosition - 1).toNat + j)) ∧
    (∀ e, (f.applyStrict (mkReader src)).err = some e → applyFailureOk e) := by
  set L := (f.oldPosition - 1).toNat with hL
  have hcast : ((L : Nat) : Int) = f.oldPosition - 1 := by
    rw [hL]
    exact Int.toNat_of_nonneg (by omega)
  have hLE : L ≤ effLen src := by omega
  simp only [TextFragment.applyStrict, hv]
  rw [← hcast]
  rw [copyLines_spec src hwf L hLE]
  dsimp only
  rw [if_neg (by by_cases h2 : effLen src ≤ L <;> simp [h2])]
  dsimp only
  have hall := applyLines_spec src hwf L hLE f.lines 0 (String.join (src.take L)) 0 true
    (fun hc => absurd hc (by simp)) (fun _ _ _ _ => rfl)
  rw [nlOf_true, nnOf_true, rdOf_true, Nat.add_zero, Nat.cast_zero,
    show min L (effLen src) = L from by omega] at hall
  have hidx := oldsMatch_iff_indexed src L f.lines 0
  simp only [Nat.add_zero] at hidx
  exact ⟨hall.1.trans hidx, hall.2⟩

/-- Witness for `applyStrict_success_iff`: the modify fragment of the spec
seed scenarios applied to its matching three-line source. -/
theorem applyStrict_success_iff_witness :
    validate fragModify = none ∧
    wfSource ["ctx\n", "old\n", "ctx\n"] = true ∧
    1 ≤ fragModify.oldPosition ∧
    fragModify.oldPosition - 1 ≤ ((effLen ["ctx\n", "old\n", "ctx\n"] : Nat) : Int) ∧
    (((fragModify.applyStrict (mkReader ["ctx\n", "old\n", "ctx\n"])).err = none ↔
        ∀ j (hj : j < (oldTexts fragModify.lines).length),
          (oldTexts fragModify.lines).get ⟨j, hj⟩ =
            srcLineAt ["ctx\n", "old\n", "ctx\n"] ((fragModify.oldPosition - 1).toNat + j)) ∧
      (∀ e, (fragModify.applyStrict (mkReader ["ctx\n", "old\n", "ctx\n"])).err = some e →
        applyFailureOk e)) :=
  ⟨by decide, by decide, by decide, by decide,
    applyStrict_success_iff fragModify ["ctx\n", "old\n", "ctx\n"]
      (by decide) (by decide) (by decide) (by decide)⟩

/-- C1 counterexample: the file-creation fragment passes `validate` and has
no Context or Delete lines (`oldTexts` is empty, so the claimed matching
condition holds vacuously), yet `applyStrict` on the non-empty source
fails — and with a conflict other than the claimed
"fragment line does not match src line". -/
theorem applyStrict_iff_counterexample :
    validate fragCreate = none ∧
    oldTexts fragCreate.lines = [] ∧
    (fragCreate.applyStrict (mkReader ["y\n"])).err =
      some (.applyE 1 0 0 (.conflict "cannot create new file from non-empty src")) :=
  ⟨by decide, by decide, by decide⟩
